import Mathlib

/-!
Verification of the `competitive-rust` utility crates against their
specification.  The development shallowly embeds the Fenwick tree crate
(`dopecomp_fenwick`), the graph container (`dopecomp_graph`), the Eulerian
path/cycle solver (`dopecomp_euler`) and the tokenizing input parser
(`dopecomp_io`), and proves theorems settling the specification's claims.

Embedding conventions:
* Rust `usize` values are modelled as `Nat`; the embedding is faithful for
  containers of length at most `2 ^ 64` (every `Vec` in the source).
* Rust `i64` values are modelled as `Int`, with explicit wrapping
  (`wrap64`) at the operations where the source performs release-mode
  wrapping arithmetic; the generic numeric type parameters of the source
  (`T: Add + Sub + Default`) are instantiated at `Int`.
* Rust panics (out-of-bounds indexing, failed `unwrap`/`expect`,
  explicit `panic!` calls) are modelled as `Except` errors.
* Rust `while` loops and recursion are embedded with an explicit fuel
  argument and structural recursion; call sites pass a fuel bound that
  exceeds the iteration count of the loop for every input in the `usize`
  domain, which keeps all definitions kernel-computable.
-/

namespace CompRust

/-- `i64` wrap-around: normalises an integer into `[-2^63, 2^63)`, the
value range of Rust's `i64` under release-mode wrapping arithmetic. -/
def wrap64 (z : ℤ) : ℤ := (z + 2 ^ 63) % 2 ^ 64 - 2 ^ 63

/-- `lsb` from `dopecomp_fenwick/src/lib.rs`: `val & (!val + 1)` computed on
`usize`, with the two's-complement wrap-around of `!val + 1` made explicit
(`!val = 2^64 - 1 - val`, so `!val + 1 = (2^64 - val) % 2^64` for
`val < 2^64`). -/
def lsb (val : ℕ) : ℕ := val &&& ((2 ^ 64 - val % 2 ^ 64) % 2 ^ 64)

/-- For odd `v`, bits above position 0 of `v - 1` agree with those of `v`. -/
theorem testBit_pred_odd (v : ℕ) (hv : v % 2 = 1) (i : ℕ) (hi : 0 < i) :
    (v - 1).testBit i = v.testBit i := by
  obtain ⟨j, rfl⟩ : ∃ j, i = j + 1 := ⟨i - 1, by omega⟩
  rw [Nat.testBit_succ, Nat.testBit_succ]
  congr 1
  omega

/-- The two's-complement trick isolates the lowest set bit: odd case. -/
theorem lsb_odd (v : ℕ) (hv : v % 2 = 1) (hlt : v < 2 ^ 64) : lsb v = 1 := by
  have hv1 : 1 ≤ v := by omega
  have hmod : v % 2 ^ 64 = v := Nat.mod_eq_of_lt hlt
  have hmod2 : (2 ^ 64 - v) % 2 ^ 64 = 2 ^ 64 - v := Nat.mod_eq_of_lt (by omega)
  have hsub : 2 ^ 64 - v = 2 ^ 64 - ((v - 1) + 1) := by omega
  have hpred : v - 1 < 2 ^ 64 := by omega
  unfold lsb
  rw [hmod, hmod2, hsub]
  apply Nat.eq_of_testBit_eq
  intro i
  rw [Nat.testBit_and, Nat.testBit_two_pow_sub_succ hpred]
  rcases Nat.eq_zero_or_pos i with hi | hi
  · subst hi
    have h2 : (v - 1) % 2 = 0 := by omega
    simp [Nat.testBit_zero, hv, h2]
  · have h1f : (1 : ℕ).testBit i = false :=
      Nat.testBit_lt_two_pow (Nat.one_lt_two_pow_iff.mpr (by omega))
    by_cases h64 : i < 64
    · rw [testBit_pred_odd v hv i hi, h1f]
      cases hvb : v.testBit i <;> simp [h64]
    · have hvf : v.testBit i = false :=
        Nat.testBit_lt_two_pow (lt_of_lt_of_le hlt (Nat.pow_le_pow_right (by norm_num) (by omega)))
      simp [hvf, h1f]

/-- The two's-complement trick isolates the lowest set bit: even case. -/
theorem lsb_even (v : ℕ) (hv : v % 2 = 0) (hpos : 0 < v) (hlt : v < 2 ^ 64) :
    lsb v = 2 * lsb (v / 2) := by
  have hv2 : v = 2 * (v / 2) := by omega
  set k := v / 2 with hk
  have hkpos : 0 < k := by omega
  have hklt : k < 2 ^ 63 := by omega
  have hklt64 : k < 2 ^ 64 := by omega
  unfold lsb
  rw [Nat.mod_eq_of_lt hlt, Nat.mod_eq_of_lt (show 2 ^ 64 - v < 2 ^ 64 by omega),
      Nat.mod_eq_of_lt hklt64, Nat.mod_eq_of_lt (show 2 ^ 64 - k < 2 ^ 64 by omega)]
  apply Nat.eq_of_testBit_eq
  intro i
  cases i with
  | zero =>
    have h1 : v.testBit 0 = false := by rw [Nat.testBit_zero]; simp [hv]
    have h2 : (2 * (k &&& (2 ^ 64 - k))).testBit 0 = false := by
      rw [Nat.testBit_zero]; simp [Nat.mul_mod_right]
    rw [Nat.testBit_and, h1, h2, Bool.false_and]
  | succ j =>
    have hdiv1 : v / 2 = k := rfl
    have hdiv2 : (2 ^ 64 - v) / 2 = 2 ^ 63 - k := by omega
    have hdiv3 : 2 * (k &&& (2 ^ 64 - k)) / 2 = k &&& (2 ^ 64 - k) := by omega
    rw [Nat.testBit_and, Nat.testBit_succ, Nat.testBit_succ, Nat.testBit_succ, hdiv1, hdiv2,
        hdiv3, Nat.testBit_and]
    cases hkj : k.testBit j
    · simp
    · have hj63 : j < 63 := by
        by_contra hj
        have : k.testBit j = false :=
          Nat.testBit_lt_two_pow (lt_of_lt_of_le hklt (Nat.pow_le_pow_right (by norm_num) (by omega)))
        simp [this] at hkj
      have e1 : 2 ^ 63 - k = 2 ^ 63 - ((k - 1) + 1) := by omega
      have e2 : 2 ^ 64 - k = 2 ^ 64 - ((k - 1) + 1) := by omega
      rw [e1, e2, Nat.testBit_two_pow_sub_succ (show k - 1 < 2 ^ 63 by omega),
          Nat.testBit_two_pow_sub_succ (show k - 1 < 2 ^ 64 by omega)]
      simp [hj63, show j < 64 by omega]

/-- `lsb` is positive on the `usize` domain. -/
theorem lsb_pos : ∀ v : ℕ, 0 < v → v < 2 ^ 64 → 0 < lsb v := by
  intro v
  induction v using Nat.strong_induction_on with
  | _ v ih =>
    intro hpos hlt
    by_cases hodd : v % 2 = 1
    · rw [lsb_odd v hodd hlt]; omega
    · have he : v % 2 = 0 := by omega
      rw [lsb_even v he hpos hlt]
      have := ih (v / 2) (by omega) (by omega) (by omega)
      omega

/-- `lsb v ≤ v` on the `usize` domain. -/
theorem lsb_le : ∀ v : ℕ, 0 < v → v < 2 ^ 64 → lsb v ≤ v := by
  intro v
  induction v using Nat.strong_induction_on with
  | _ v ih =>
    intro hpos hlt
    by_cases hodd : v % 2 = 1
    · rw [lsb_odd v hodd hlt]; omega
    · have he : v % 2 = 0 := by omega
      rw [lsb_even v he hpos hlt]
      have := ih (v / 2) (by omega) (by omega) (by omega)
      omega

/-- Carry property: adding the lowest set bit at least doubles it. -/
theorem lsb_add_lsb : ∀ v : ℕ, 0 < v → v + lsb v < 2 ^ 64 → 2 * lsb v ≤ lsb (v + lsb v) := by
  intro v
  induction v using Nat.strong_induction_on with
  | _ v ih =>
    intro hpos hlt
    have hv64 : v < 2 ^ 64 := by omega
    by_cases hodd : v % 2 = 1
    · rw [lsb_odd v hodd hv64]
      rw [lsb_odd v hodd hv64] at hlt
      have heven : (v + 1) % 2 = 0 := by omega
      rw [lsb_even (v + 1) heven (by omega) (by omega)]
      have := lsb_pos ((v + 1) / 2) (by omega) (by omega)
      omega
    · have he : v % 2 = 0 := by omega
      have hklt : v / 2 < v := by omega
      have hlsb : lsb v = 2 * lsb (v / 2) := lsb_even v he hpos hv64
      have hsum_even : (v + lsb v) % 2 = 0 := by omega
      have hsum_pos : 0 < v + lsb v := by omega
      have h0 : lsb (v + lsb v) = 2 * lsb ((v + lsb v) / 2) :=
        lsb_even (v + lsb v) hsum_even hsum_pos hlt
      have hdiv : (v + lsb v) / 2 = v / 2 + lsb (v / 2) := by omega
      rw [hdiv] at h0
      have := ih (v / 2) hklt (by omega) (by omega)
      omega

/-- Interval-nesting step: if `pos` lies strictly inside the block covered by
`i` (that is `i - lsb i < pos < i`), then stepping `pos` by its lowest set
bit stays at or below `i`. -/
theorem lsb_step_le : ∀ pos : ℕ, ∀ i : ℕ, 0 < pos → pos < i → i < 2 ^ 64 →
    i - lsb i < pos → pos + lsb pos ≤ i := by
  intro pos
  induction pos using Nat.strong_induction_on with
  | _ pos ih =>
    intro i hpos hlt hi64 hblock
    have hpos64 : pos < 2 ^ 64 := by omega
    have hipos : 0 < i := by omega
    by_cases hodd : pos % 2 = 1
    · rw [lsb_odd pos hodd hpos64]; omega
    · have he : pos % 2 = 0 := by omega
      have hieven : i % 2 = 0 := by
        by_contra hio
        have hio' : i % 2 = 1 := by omega
        rw [lsb_odd i hio' hi64] at hblock
        omega
      have hq : 0 < pos / 2 := by omega
      have hjle : lsb (i / 2) ≤ i / 2 := lsb_le (i / 2) (by omega) (by omega)
      have hilsb : lsb i = 2 * lsb (i / 2) := lsb_even i hieven hipos hi64
      have hplsb : lsb pos = 2 * lsb (pos / 2) := lsb_even pos he hpos hpos64
      have hstep := ih (pos / 2) (by omega) (i / 2) hq (by omega) (by omega) (by omega)
      omega

/-! ## `dopecomp_fenwick`: the Fenwick tree -/

/-- Error raised by `FenwickTree` operations when a position is outside the
tree's bounds (the Rust source panics; spec §7 calls this `OutOfRange`). -/
inductive FenwickError where
  | outOfRange
deriving DecidableEq

/-- `FenwickTree<T>` from `dopecomp_fenwick`: a 1-indexed backing vector
(index 0 is a sentinel). -/
structure FenwickTree (T : Type) where
  data : List T
deriving DecidableEq

/-- Body of `FenwickTree::update`'s `while pos < self.data.len()` loop.  The
fuel argument exceeds the iteration count whenever `data.length ≤ 2 ^ 64`
(every Rust vector), since `pos` grows by `lsb pos ≥ 1` per iteration. -/
def updateLoop {T : Type} (f : T → T) : ℕ → List T → ℕ → List T
  | 0, data, _ => data
  | fuel + 1, data, pos =>
    if h : pos < data.length then
      updateLoop f fuel (data.set pos (f (data.get ⟨pos, h⟩))) (pos + lsb pos)
    else data

/-- `FenwickTree::update`: apply the mutator `f` to every node covering
`pos`; positions `0` and `≥ data.len()` are rejected (the source panics). -/
def FenwickTree.update {T : Type} (t : FenwickTree T) (pos : ℕ) (f : T → T) :
    Except FenwickError (FenwickTree T) :=
  if pos = 0 ∨ pos ≥ t.data.length then .error .outOfRange
  else .ok ⟨updateLoop f (t.data.length + 1) t.data pos⟩

/-- Body of `FenwickTree::query`'s `while pos > 0` loop.  The conjunct
`pos < data.length` is an invariant of the Rust loop (established by the
entry check, preserved since `pos` decreases); it is part of the guard here
so that the vector access is well-defined. -/
def queryLoop {T Q : Type} (comp : Q → T → Q) : ℕ → List T → ℕ → Q → Q
  | 0, _, _, res => res
  | fuel + 1, data, pos, res =>
    if h : 0 < pos ∧ pos < data.length then
      queryLoop comp fuel data (pos - lsb pos) (comp res (data.get ⟨pos, h.2⟩))
    else res

/-- `FenwickTree::query`: fold `comp` over the nodes covering the prefix
`(0, pos]`; positions `≥ data.len()` are rejected (the source panics), and
`pos = 0` returns `neutral`. -/
def FenwickTree.query {T Q : Type} (t : FenwickTree T) (pos : ℕ) (neutral : Q)
    (comp : Q → T → Q) : Except FenwickError Q :=
  if pos ≥ t.data.length then .error .outOfRange
  else .ok (queryLoop comp (t.data.length + 1) t.data pos neutral)

/-- `FenwickTree::bin_search`'s `for l in (0..30).rev()` loop; the first
argument counts the remaining levels, so a call with `l + 1` levels left
processes level `l` with step `1 << l = 2 ^ l`. -/
def binSearchAux {T Q : Type} (eval : Q → Bool) (comp : Q → T → Q) (data : List T) :
    ℕ → ℕ → Q → ℕ
  | 0, pos, _ => pos
  | l + 1, pos, sum =>
    if h : pos + 2 ^ l < data.length then
      if eval (comp sum (data.get ⟨pos + 2 ^ l, h⟩)) then
        binSearchAux eval comp data l (pos + 2 ^ l) (comp sum (data.get ⟨pos + 2 ^ l, h⟩))
      else binSearchAux eval comp data l pos sum
    else binSearchAux eval comp data l pos sum

/-- `FenwickTree::bin_search`: greedy power-of-two descent over prefix
aggregates, returning `(pos, pos + 1)`. -/
def FenwickTree.bin_search {T Q : Type} (t : FenwickTree T) (eval : Q → Bool)
    (neutral : Q) (comp : Q → T → Q) : ℕ × ℕ :=
  let pos := binSearchAux eval comp t.data 30 0 neutral
  (pos, pos + 1)

/-- `FenwickTree::new(n)`: `n + 1` default-initialised slots. -/
def FenwickTree.new (T : Type) [Inhabited T] (n : ℕ) : FenwickTree T :=
  ⟨List.replicate (n + 1) default⟩

/-- `FenwickTree::from_data`. -/
def FenwickTree.from_data {T : Type} (data : List T) : FenwickTree T := ⟨data⟩

/-- `FenwickTree::add_value` (arithmetic convenience layer, instantiated at
`Int`): `update(pos, |e| *e = *e + val)`. -/
def FenwickTree.add_value (t : FenwickTree ℤ) (pos : ℕ) (val : ℤ) :
    Except FenwickError (FenwickTree ℤ) :=
  t.update pos (fun e => e + val)

/-- `FenwickTree::prefix_sum`: `query(pos, T::default(), |s, e| s + *e)`. -/
def FenwickTree.prefix_sum (t : FenwickTree ℤ) (pos : ℕ) : Except FenwickError ℤ :=
  t.query pos 0 (fun s e => s + e)

/-- `FenwickTree::bin_search_sum`: `bin_search(eval, T::default(), |s, e| s + *e)`. -/
def FenwickTree.bin_search_sum (t : FenwickTree ℤ) (eval : ℤ → Bool) : ℕ × ℕ :=
  t.bin_search eval 0 (fun s e => s + e)

/-- Ghost description of the index set visited by `updateLoop` starting at
`pos` in a tree of length `len` (not part of the source; used to state the
Fenwick invariant). -/
def updPath (len : ℕ) (pos : ℕ) : List ℕ :=
  if h : 0 < pos ∧ pos < len ∧ pos < 2 ^ 64 then pos :: updPath len (pos + lsb pos) else []
termination_by len - pos
decreasing_by
  have := lsb_pos pos h.1 h.2.2
  omega

/-- Elements of `updPath` are positive, below `len` and in the `usize` range. -/
theorem updPath_mem_bounds (len : ℕ) :
    ∀ d pos i, len - pos ≤ d → i ∈ updPath len pos → 0 < i ∧ i < len ∧ i < 2 ^ 64 := by
  intro d
  induction d with
  | zero =>
    intro pos i hd hi
    rw [updPath, dif_neg (by omega)] at hi
    simp at hi
  | succ d ih =>
    intro pos i hd hi
    rw [updPath] at hi
    by_cases hg : 0 < pos ∧ pos < len ∧ pos < 2 ^ 64
    · rw [dif_pos hg] at hi
      rcases List.mem_cons.mp hi with rfl | htail
      · exact ⟨hg.1, hg.2.1, hg.2.2⟩
      · have hl : 0 < lsb pos := lsb_pos pos hg.1 hg.2.2
        exact ih (pos + lsb pos) i (by omega) htail
    · rw [dif_neg hg] at hi
      simp at hi

/-- Every element `i` of `updPath len pos` satisfies `pos ≤ i` and covers at
least the block of `pos`: `i - lsb i ≤ pos - lsb pos`. -/
theorem updPath_mem_strong (len : ℕ) (hlen : len ≤ 2 ^ 64) :
    ∀ d pos, len - pos ≤ d → 0 < pos → ∀ i ∈ updPath len pos,
      pos ≤ i ∧ i - lsb i ≤ pos - lsb pos := by
  intro d
  induction d with
  | zero =>
    intro pos hd hpos i hi
    rw [updPath, dif_neg (by omega)] at hi
    simp at hi
  | succ d ih =>
    intro pos hd hpos i hi
    rw [updPath] at hi
    by_cases hg : 0 < pos ∧ pos < len ∧ pos < 2 ^ 64
    · rw [dif_pos hg] at hi
      rcases List.mem_cons.mp hi with rfl | htail
      · exact ⟨le_refl _, le_refl _⟩
      · have hl : 0 < lsb pos := lsb_pos pos hg.1 hg.2.2
        obtain ⟨hi0, hilen, hi64⟩ := updPath_mem_bounds len len (pos + lsb pos) i (by omega) htail
        have hih := ih (pos + lsb pos) (by omega) (by omega) i htail
        have hcarry : 2 * lsb pos ≤ lsb (pos + lsb pos) := lsb_add_lsb pos hg.1 (by omega)
        have hle : lsb pos ≤ pos := lsb_le pos hg.1 hg.2.2
        exact ⟨by omega, by omega⟩
    · rw [dif_neg hg] at hi
      simp at hi

/-- Completeness of the update path: every `i` whose block contains `pos`
is visited. -/
theorem mem_updPath_of (len : ℕ) (hlen : len ≤ 2 ^ 64) :
    ∀ d pos i, i - pos ≤ d → 0 < pos → pos ≤ i → i < len → i - lsb i < pos →
      i ∈ updPath len pos := by
  intro d
  induction d with
  | zero =>
    intro pos i hd hpos hle hlen' hblock
    have hpi : pos = i := by omega
    subst hpi
    rw [updPath, dif_pos ⟨hpos, hlen', by omega⟩]
    exact List.mem_cons_self _ _
  | succ d ih =>
    intro pos i hd hpos hle hlen' hblock
    by_cases heq : pos = i
    · subst heq
      rw [updPath, dif_pos ⟨hpos, hlen', by omega⟩]
      exact List.mem_cons_self _ _
    · have hstep : pos + lsb pos ≤ i := lsb_step_le pos i hpos (by omega) (by omega) hblock
      have hl : 0 < lsb pos := lsb_pos pos hpos (by omega)
      have htail : i ∈ updPath len (pos + lsb pos) :=
        ih (pos + lsb pos) i (by omega) (by omega) hstep hlen' (by omega)
      rw [updPath, dif_pos ⟨hpos, by omega, by omega⟩]
      exact List.mem_cons_of_mem _ htail

/-- Characterisation of the update path: `i` is visited exactly when the
block `(i - lsb i, i]` contains `pos`. -/
theorem mem_updPath_iff (len : ℕ) (hlen : len ≤ 2 ^ 64) (pos : ℕ) (hpos : 0 < pos)
    (i : ℕ) (hi : i < len) :
    i ∈ updPath len pos ↔ pos ≤ i ∧ i - lsb i < pos := by
  constructor
  · intro h
    obtain ⟨hi0, _, hi64⟩ := updPath_mem_bounds len len pos i (by omega) h
    have hs := updPath_mem_strong len hlen len pos (by omega) hpos i h
    have hpos64 : pos < 2 ^ 64 := by omega
    have := lsb_pos pos hpos hpos64
    have := lsb_le pos hpos hpos64
    exact ⟨hs.1, by omega⟩
  · intro h
    exact mem_updPath_of len hlen (i - pos) pos i (le_refl _) hpos h.1 hi h.2

/-- `updateLoop` preserves the backing length. -/
theorem updateLoop_length {T : Type} (f : T → T) :
    ∀ fuel (data : List T) pos, (updateLoop f fuel data pos).length = data.length := by
  intro fuel
  induction fuel with
  | zero => intro data pos; rfl
  | succ fuel ih =>
    intro data pos
    rw [updateLoop]
    split
    · rw [ih]
      simp
    · rfl

/-- Pointwise effect of `updateLoop`: the mutator is applied exactly on the
update path. -/
theorem updateLoop_getq {T : Type} (f : T → T) :
    ∀ fuel (data : List T) pos, data.length ≤ 2 ^ 64 → 0 < pos → data.length - pos < fuel →
      ∀ i, (updateLoop f fuel data pos)[i]? =
        if i ∈ updPath data.length pos then (data[i]?).map f else data[i]? := by
  intro fuel
  induction fuel with
  | zero =>
    intro data pos hlen hpos hf
    omega
  | succ fuel ih =>
    intro data pos hlen hpos hf i
    rw [updateLoop]
    by_cases h : pos < data.length
    · rw [dif_pos h]
      have hpos64 : pos < 2 ^ 64 := by omega
      have hl : 0 < lsb pos := lsb_pos pos hpos hpos64
      have hlen' : (data.set pos (f (data.get ⟨pos, h⟩))).length = data.length := by simp
      rw [ih (data.set pos (f (data.get ⟨pos, h⟩))) (pos + lsb pos) (by omega) (by omega)
          (by omega) i]
      have hpath : updPath data.length pos = pos :: updPath data.length (pos + lsb pos) := by
        rw [updPath, dif_pos ⟨hpos, h, hpos64⟩]
      rw [hpath, hlen']
      by_cases heq : i = pos
      · subst heq
        have hnot : i ∉ updPath data.length (i + lsb i) := by
          intro hmem
          have := (updPath_mem_strong data.length hlen data.length (i + lsb i)
            (by omega) (by omega) i hmem).1
          omega
        rw [if_neg hnot, if_pos (List.mem_cons_self _ _)]
        rw [List.getElem?_set_self h]
        rw [List.getElem?_eq_getElem h, List.get_eq_getElem]
        simp
      · have hmem : (i ∈ pos :: updPath data.length (pos + lsb pos)) =
            (i ∈ updPath data.length (pos + lsb pos)) := by
          rw [List.mem_cons]
          apply propext
          constructor
          · intro hc
            rcases hc with hc | hc
            · exact absurd hc heq
            · exact hc
          · intro hc
            exact Or.inr hc
        simp only [hmem]
        rw [List.getElem?_set_ne (fun hc => heq hc.symm)]
    · rw [dif_neg h]
      rw [updPath, dif_neg (fun hg => h hg.2.1)]
      rw [if_neg (by simp)]

/-- The Fenwick-tree invariant (spec §3): node `i` stores the aggregate of
the conceptual array `v` over the semi-open block `(i - lsb i, i]`. -/
def BITInv (data : List ℤ) (v : ℕ → ℤ) : Prop :=
  ∀ i, 0 < i → i < data.length → data[i]? = some (∑ j in Finset.Ioc (i - lsb i) i, v j)

/-- A fresh tree satisfies the invariant for the all-zero array. -/
theorem BITInv_new (n : ℕ) : BITInv (FenwickTree.new ℤ n).data (fun _ => 0) := by
  intro i hi0 hilen
  simp only [FenwickTree.new, List.length_replicate] at hilen
  simp [FenwickTree.new, List.getElem?_replicate, hilen]

/-- The invariant only depends on the pointwise values of `v`. -/
theorem BITInv_congr (data : List ℤ) (v w : ℕ → ℤ) (h : ∀ j, v j = w j)
    (hinv : BITInv data v) : BITInv data w := by
  intro i hi0 hilen
  rw [hinv i hi0 hilen]
  congr 1
  exact Finset.sum_congr rfl fun j _ => h j

/-- Under the invariant, the query loop folds up exactly the prefix sum of
the conceptual array. -/
theorem queryLoop_eq (data : List ℤ) (v : ℕ → ℤ) (hinv : BITInv data v)
    (hlen : data.length ≤ 2 ^ 64) :
    ∀ fuel pos acc, pos < data.length → pos < fuel →
      queryLoop (fun s e => s + e) fuel data pos acc =
        acc + ∑ j in Finset.Ioc 0 pos, v j := by
  intro fuel
  induction fuel with
  | zero =>
    intro pos acc h hf
    omega
  | succ fuel ih =>
    intro pos acc hpos hf
    rw [queryLoop]
    by_cases h0 : 0 < pos
    · rw [dif_pos ⟨h0, hpos⟩]
      have hpos64 : pos < 2 ^ 64 := by omega
      have hl := lsb_pos pos h0 hpos64
      have hle := lsb_le pos h0 hpos64
      rw [ih (pos - lsb pos) _ (by omega) (by omega)]
      have hget : data.get ⟨pos, hpos⟩ = ∑ j in Finset.Ioc (pos - lsb pos) pos, v j := by
        have hq := hinv pos h0 hpos
        rw [List.getElem?_eq_getElem hpos] at hq
        rw [List.get_eq_getElem]
        exact Option.some.inj hq
      rw [hget,
        ← Finset.sum_Ioc_consecutive v (show 0 ≤ pos - lsb pos by omega)
          (show pos - lsb pos ≤ pos by omega)]
      ring
    · rw [dif_neg (by omega)]
      have hz : pos = 0 := by omega
      subst hz
      simp

/-- A point update of the backing array preserves the invariant for the
pointwise-updated conceptual array. -/
theorem BITInv_update (data : List ℤ) (v : ℕ → ℤ) (d : ℤ) (pos : ℕ)
    (hinv : BITInv data v) (hlen : data.length ≤ 2 ^ 64) (hpos : 0 < pos)
    (hlt : pos < data.length) :
    BITInv (updateLoop (fun e => e + d) (data.length + 1) data pos)
      (fun j => if j = pos then v j + d else v j) := by
  intro i hi0 hilen
  rw [updateLoop_length] at hilen
  have hsum : ∑ j in Finset.Ioc (i - lsb i) i, (if j = pos then v j + d else v j)
      = (∑ j in Finset.Ioc (i - lsb i) i, v j)
        + (if pos ∈ Finset.Ioc (i - lsb i) i then d else 0) := by
    have hpt : ∀ j, (if j = pos then v j + d else v j) = v j + (if j = pos then d else 0) := by
      intro j
      by_cases hj : j = pos <;> simp [hj]
    simp only [hpt]
    rw [Finset.sum_add_distrib]
    congr 1
    exact Finset.sum_ite_eq' (Finset.Ioc (i - lsb i) i) pos (fun _ => d)
  have hmem : (pos ∈ Finset.Ioc (i - lsb i) i) ↔ (pos ≤ i ∧ i - lsb i < pos) := by
    rw [Finset.mem_Ioc]
    exact ⟨fun h => ⟨h.2, h.1⟩, fun h => ⟨h.2, h.1⟩⟩
  have hbeta : (∑ j in Finset.Ioc (i - lsb i) i, (fun j => if j = pos then v j + d else v j) j)
      = ∑ j in Finset.Ioc (i - lsb i) i, (if j = pos then v j + d else v j) := rfl
  rw [updateLoop_getq (fun e => e + d) (data.length + 1) data pos hlen hpos (by omega) i,
      hinv i hi0 hilen, hbeta, hsum]
  simp only [mem_updPath_iff data.length hlen pos hpos i hilen, hmem]
  by_cases hc : pos ≤ i ∧ i - lsb i < pos
  · rw [if_pos hc, if_pos hc]
    simp
  · rw [if_neg hc, if_neg hc]
    simp

/-- Apply a list of `(pos, delta)` operations with `add_value`. -/
def applyOps (t : FenwickTree ℤ) (ops : List (ℕ × ℤ)) :
    Except FenwickError (FenwickTree ℤ) :=
  ops.foldlM (fun acc op => acc.add_value op.1 op.2) t

/-- The conceptual array determined by a list of operations: the sum of all
deltas applied at position `j`. -/
def opsVal (ops : List (ℕ × ℤ)) (j : ℕ) : ℤ :=
  ((ops.filter (fun op => op.1 = j)).map Prod.snd).sum

/-- The naive running-sum reference: the sum of all deltas applied at
positions `≤ p`. -/
def naiveSumTo (ops : List (ℕ × ℤ)) (p : ℕ) : ℤ :=
  ((ops.filter (fun op => op.1 ≤ p)).map Prod.snd).sum

theorem opsVal_cons (q : ℕ) (d : ℤ) (rest : List (ℕ × ℤ)) (j : ℕ) :
    opsVal ((q, d) :: rest) j = (if q = j then d else 0) + opsVal rest j := by
  unfold opsVal
  by_cases hq : q = j <;> simp [List.filter_cons, hq]

/-- Applying in-range operations succeeds and transforms the invariant's
conceptual array by the operations' deltas. -/
theorem applyOps_ok :
    ∀ (ops : List (ℕ × ℤ)) (t : FenwickTree ℤ) (v : ℕ → ℤ),
      BITInv t.data v → t.data.length ≤ 2 ^ 64 →
      (∀ op ∈ ops, 0 < op.1 ∧ op.1 < t.data.length) →
      ∃ t' : FenwickTree ℤ, applyOps t ops = .ok t' ∧
        t'.data.length = t.data.length ∧
        BITInv t'.data (fun j => v j + opsVal ops j) := by
  intro ops
  induction ops with
  | nil =>
    intro t v hinv hlen _
    refine ⟨t, rfl, rfl, ?_⟩
    apply BITInv_congr t.data v _ _ hinv
    intro j
    simp [opsVal]
  | cons op rest ih =>
    intro t v hinv hlen hops
    obtain ⟨pos, d⟩ := op
    have hop := hops (pos, d) (List.mem_cons_self _ _)
    have hupd : t.add_value pos d = .ok ⟨updateLoop (fun e => e + d) (t.data.length + 1) t.data pos⟩ := by
      unfold FenwickTree.add_value FenwickTree.update
      rw [if_neg (by omega)]
    have hinv1 := BITInv_update t.data v d pos hinv hlen hop.1 hop.2
    have hlen1 : (updateLoop (fun e => e + d) (t.data.length + 1) t.data pos).length
        = t.data.length := updateLoop_length _ _ _ _
    obtain ⟨t', hok, hlen', hinv'⟩ :=
      ih ⟨updateLoop (fun e => e + d) (t.data.length + 1) t.data pos⟩
        (fun j => if j = pos then v j + d else v j)
        hinv1 (by simpa [hlen1]) (by simpa [hlen1] using fun op hop' => hops op (List.mem_cons_of_mem _ hop'))
    refine ⟨t', ?_, by simpa [hlen1] using hlen', ?_⟩
    · unfold applyOps at hok ⊢
      rw [List.foldlM_cons, hupd]
      exact hok
    · apply BITInv_congr _ _ _ _ hinv'
      intro j
      rw [opsVal_cons]
      by_cases hj : pos = j
      · subst hj
        simp
        ring
      · have hj' : ¬j = pos := fun hc => hj hc.symm
        simp [hj, hj']

/-- Summing the per-position deltas over `(0, p]` gives the naive reference,
provided every operation's position is positive. -/
theorem sum_opsVal (ops : List (ℕ × ℤ)) (hpos : ∀ op ∈ ops, 0 < op.1) (p : ℕ) :
    ∑ j in Finset.Ioc 0 p, opsVal ops j = naiveSumTo ops p := by
  induction ops with
  | nil => simp [opsVal, naiveSumTo]
  | cons op rest ih =>
    obtain ⟨q, d⟩ := op
    have hq := hpos (q, d) (List.mem_cons_self _ _)
    have ih' := ih fun o ho => hpos o (List.mem_cons_of_mem _ ho)
    simp only [opsVal_cons]
    rw [Finset.sum_add_distrib, ih']
    have hsum : ∑ j in Finset.Ioc 0 p, (if q = j then d else 0)
        = if q ∈ Finset.Ioc 0 p then d else 0 := by
      rw [← Finset.sum_ite_eq (Finset.Ioc 0 p) q (fun _ => d)]
    rw [hsum]
    have hmem : (q ∈ Finset.Ioc 0 p) ↔ q ≤ p := by
      rw [Finset.mem_Ioc]
      omega
    unfold naiveSumTo
    by_cases hqp : q ≤ p
    · rw [if_pos (hmem.mpr hqp)]
      simp [List.filter_cons, hqp]
      try ring
    · rw [if_neg (fun hc => hqp (hmem.mp hc))]
      simp [List.filter_cons, hqp]

/-- C2: for every capacity `n` (in the `usize` domain), every finite
sequence of `add_value (pos, delta)` operations with `1 ≤ pos ≤ n` applied
to `FenwickTree::new(n)`, and every position `0 ≤ p ≤ n`, `prefix_sum p`
returns exactly the sum of all deltas applied at positions `≤ p` (the naive
running-sum reference). -/
theorem c2_bit_round_trip (n : ℕ) (ops : List (ℕ × ℤ)) (p : ℕ)
    (hn : n + 1 ≤ 2 ^ 64) (hops : ∀ op ∈ ops, 1 ≤ op.1 ∧ op.1 ≤ n) (hp : p ≤ n) :
    (applyOps (FenwickTree.new ℤ n) ops >>= fun t => t.prefix_sum p)
      = .ok (naiveSumTo ops p) := by
  have hlen : (FenwickTree.new ℤ n).data.length = n + 1 := by
    simp [FenwickTree.new]
  obtain ⟨t, hok, hlen', hinv⟩ := applyOps_ok ops (FenwickTree.new ℤ n) (fun _ => 0)
    (BITInv_new n) (by omega) (by
      intro op hop
      have := hops op hop
      omega)
  have hinv' : BITInv t.data (opsVal ops) := by
    apply BITInv_congr _ _ _ _ hinv
    intro j
    simp
  rw [hok]
  show t.prefix_sum p = .ok (naiveSumTo ops p)
  unfold FenwickTree.prefix_sum FenwickTree.query
  rw [if_neg (by omega)]
  rw [queryLoop_eq t.data (opsVal ops) hinv' (by omega) (t.data.length + 1) p 0
    (by omega) (by omega)]
  rw [sum_opsVal ops (fun op hop => (hops op hop).1) p]
  norm_num

/-- Witness for C2 at a concrete input (capacity 5, the repository's own
`test_addition` example). -/
theorem c2_bit_round_trip_witness :
    (applyOps (FenwickTree.new ℤ 5) [(2, 5), (3, 4)] >>= fun t => t.prefix_sum 3)
      = .ok (naiveSumTo [(2, 5), (3, 4)] 3) :=
  c2_bit_round_trip 5 [(2, 5), (3, 4)] 3 (by norm_num) (by decide) (by norm_num)

/-- C7 (amended): `update` fails with `OutOfRange` at position `0` or above
the capacity; `query` fails with `OutOfRange` above the capacity, but
`query 0` succeeds and returns the neutral element (the empty prefix) —
contrary to the claim, position `0` is in range for `query`. -/
theorem c7_out_of_range_amended (T : Type) {Q : Type} (t : FenwickTree T) (n pos : ℕ)
    (f : T → T) (neutral : Q) (comp : Q → T → Q) (hlen : t.data.length = n + 1) :
    ((pos = 0 ∨ n < pos) → t.update pos f = .error .outOfRange) ∧
    (n < pos → t.query pos neutral comp = .error .outOfRange) ∧
    t.query 0 neutral comp = .ok neutral := by
  refine ⟨?_, ?_, ?_⟩
  · intro hc
    unfold FenwickTree.update
    rw [if_pos (by omega)]
  · intro hc
    unfold FenwickTree.query
    rw [if_pos (by omega)]
  · unfold FenwickTree.query
    rw [if_neg (by omega)]
    rw [hlen, queryLoop]
    rw [dif_neg (by omega)]

/-- Witness for C7 at a concrete input: a capacity-5 tree of integers. -/
theorem c7_out_of_range_witness :
    (FenwickTree.new ℤ 5).update 0 (fun e => e + 1) = .error .outOfRange ∧
    (FenwickTree.new ℤ 5).query 7 (0 : ℤ) (fun s e => s + e) = .error .outOfRange ∧
    (FenwickTree.new ℤ 5).query 0 (0 : ℤ) (fun s e => s + e) = .ok 0 :=
  have h0 := c7_out_of_range_amended ℤ (FenwickTree.new ℤ 5) 5 0 (fun e => e + 1)
    (0 : ℤ) (fun s e => s + e) (by simp [FenwickTree.new])
  have h7 := c7_out_of_range_amended ℤ (FenwickTree.new ℤ 5) 5 7 (fun e => e + 1)
    (0 : ℤ) (fun s e => s + e) (by simp [FenwickTree.new])
  ⟨h0.1 (Or.inl rfl), h7.2.1 (by norm_num), h0.2.2⟩

/-- Counterexample for C7 as stated: the claim says `query` at position `0`
fails with `OutOfRange`, but on a capacity-5 tree it returns the neutral
element. -/
theorem c7_out_of_range_counterexample :
    (FenwickTree.new ℤ 5).query 0 (0 : ℤ) (fun s e => s + e) = .ok 0 ∧
    (Except.ok (0 : ℤ) ≠ (Except.error FenwickError.outOfRange : Except FenwickError ℤ)) :=
  ⟨rfl, fun hc => Except.noConfusion hc⟩

/-- Positions of the form `pos + 2 ^ L` with `2 ^ (L + 1) ∣ pos` have lowest
set bit `2 ^ L` (the nodes touched during the binary-search descent). -/
theorem lsb_pow_add : ∀ L pos : ℕ, 2 ^ (L + 1) ∣ pos → pos + 2 ^ L < 2 ^ 64 →
    lsb (pos + 2 ^ L) = 2 ^ L := by
  intro L
  induction L with
  | zero =>
    intro pos hdvd hlt
    rw [pow_one] at hdvd
    rw [pow_zero] at hlt ⊢
    exact lsb_odd (pos + 1) (by omega) hlt
  | succ L ih =>
    intro pos hdvd hlt
    obtain ⟨m, hm⟩ := hdvd
    have hm' : pos = 2 * (2 ^ (L + 1) * m) := by rw [hm]; ring
    set k := pos / 2 with hk
    have hkval : k = 2 ^ (L + 1) * m := by omega
    have hkdvd : 2 ^ (L + 1) ∣ k := ⟨m, hkval⟩
    have hL1 : 0 < 2 ^ (L + 1) := Nat.two_pow_pos _
    have hL : 0 < 2 ^ L := Nat.two_pow_pos _
    have hsum : pos + 2 ^ (L + 1) = 2 * (k + 2 ^ L) := by
      have h2 : (2:ℕ) ^ (L + 1) = 2 * 2 ^ L := by ring
      omega
    have heven : (pos + 2 ^ (L + 1)) % 2 = 0 := by omega
    have hpos' : 0 < pos + 2 ^ (L + 1) := by omega
    rw [lsb_even _ heven hpos' hlt]
    have hdiv : (pos + 2 ^ (L + 1)) / 2 = k + 2 ^ L := by omega
    rw [hdiv, ih k hkdvd (by omega)]
    ring

/-- Correctness of the binary-search descent: starting from a committed
prefix `pos` that is a multiple of the remaining step and whose aggregate is
`sum`, the descent lands exactly on the largest satisfying prefix `xs`. -/
theorem binSearchAux_correct (data : List ℤ) (v : ℕ → ℤ) (hinv : BITInv data v)
    (hlen : data.length ≤ 2 ^ 64) (eval : ℤ → Bool)
    (hmono : ∀ y z : ℕ, y ≤ z → z < data.length →
      eval (∑ j in Finset.Ioc 0 z, v j) = true → eval (∑ j in Finset.Ioc 0 y, v j) = true)
    (xs : ℕ) (hxs_lt : xs < data.length)
    (hxs_true : eval (∑ j in Finset.Ioc 0 xs, v j) = true)
    (hxs_max : ∀ y, y < data.length → eval (∑ j in Finset.Ioc 0 y, v j) = true → y ≤ xs) :
    ∀ L pos sum, 2 ^ L ∣ pos → sum = ∑ j in Finset.Ioc 0 pos, v j →
      pos ≤ xs → xs < pos + 2 ^ L →
      binSearchAux eval (fun s e => s + e) data L pos sum = xs := by
  intro L
  induction L with
  | zero =>
    intro pos sum _ _ h1 h2
    rw [pow_zero] at h2
    rw [binSearchAux]
    omega
  | succ L ih =>
    intro pos sum hdvd hsum h1 h2
    have hL : 0 < 2 ^ L := Nat.two_pow_pos L
    have hpow : (2:ℕ) ^ (L + 1) = 2 * 2 ^ L := by ring
    have hdvd' : 2 ^ L ∣ pos := dvd_trans (pow_dvd_pow 2 (by omega)) hdvd
    rw [binSearchAux]
    by_cases hg : pos + 2 ^ L < data.length
    · rw [dif_pos hg]
      have hq64 : pos + 2 ^ L < 2 ^ 64 := by omega
      have hlsbq : lsb (pos + 2 ^ L) = 2 ^ L := lsb_pow_add L pos hdvd hq64
      have hget : data.get ⟨pos + 2 ^ L, hg⟩ = ∑ j in Finset.Ioc pos (pos + 2 ^ L), v j := by
        have hq := hinv (pos + 2 ^ L) (by omega) hg
        rw [List.getElem?_eq_getElem hg] at hq
        rw [List.get_eq_getElem]
        rw [Option.some.inj hq, hlsbq]
        have harg : pos + 2 ^ L - 2 ^ L = pos := by omega
        rw [harg]
      have hnew : sum + data.get ⟨pos + 2 ^ L, hg⟩ = ∑ j in Finset.Ioc 0 (pos + 2 ^ L), v j := by
        rw [hget, hsum, Finset.sum_Ioc_consecutive v (by omega) (by omega)]
      cases he : eval (sum + data.get ⟨pos + 2 ^ L, hg⟩)
      · rw [if_neg (by simp)]
        apply ih pos sum hdvd' hsum h1
        by_contra hcon
        have hle : pos + 2 ^ L ≤ xs := by omega
        have := hmono (pos + 2 ^ L) xs hle hxs_lt hxs_true
        rw [← hnew] at this
        rw [this] at he
        exact Bool.noConfusion he
      · rw [if_pos rfl]
        apply ih (pos + 2 ^ L) _ (dvd_add hdvd' dvd_rfl) hnew
        · apply hxs_max (pos + 2 ^ L) hg
          rw [← hnew]
          exact he
        · omega
    · rw [dif_neg hg]
      exact ih pos sum hdvd' hsum h1 (by omega)

/-- The binary-search descent with an always-true predicate commits every
in-range step, reaching `pos + 2 ^ L - 1`. -/
theorem binSearchAux_true {T : Type} (data : List T) (comp : ℤ → T → ℤ) :
    ∀ L pos sum, pos + 2 ^ L ≤ data.length →
      binSearchAux (fun _ => true) comp data L pos sum = pos + 2 ^ L - 1 := by
  intro L
  induction L with
  | zero =>
    intro pos sum _
    rw [binSearchAux, pow_zero]
    omega
  | succ L ih =>
    intro pos sum h
    have hL : 0 < 2 ^ L := Nat.two_pow_pos L
    have hpow : (2:ℕ) ^ (L + 1) = 2 * 2 ^ L := by ring
    have hg : pos + 2 ^ L < data.length := by omega
    rw [binSearchAux, dif_pos hg, if_pos rfl]
    rw [ih (pos + 2 ^ L) _ (by omega)]
    omega

/-- The query loop over a fresh (all-default, hence all-zero) tree returns
its accumulator unchanged. -/
theorem queryLoop_new_zero (n : ℕ) :
    ∀ fuel pos acc, queryLoop (fun s e => s + e) fuel (FenwickTree.new ℤ n).data pos acc = acc := by
  intro fuel
  induction fuel with
  | zero =>
    intro pos acc
    rfl
  | succ fuel ih =>
    intro pos acc
    rw [queryLoop]
    by_cases hg : 0 < pos ∧ pos < (FenwickTree.new ℤ n).data.length
    · rw [dif_pos hg]
      have hz : (FenwickTree.new ℤ n).data.get ⟨pos, hg.2⟩ = 0 := by
        show (List.replicate (n + 1) (default : ℤ)).get _ = 0
        rw [List.get_eq_getElem, List.getElem_replicate]
        rfl
      rw [hz, ih]
      ring
    · rw [dif_neg hg]

/-- The capacity-10 operation list of the specification's concrete
binary-search example: adds 3@2, 1@3, 2@4, 6@5, 4@6, 4@8, 5@10. -/
def bsTestOps : List (ℕ × ℤ) := [(2, 3), (3, 1), (4, 2), (5, 6), (6, 4), (8, 4), (10, 5)]

/-- C3 (amended): for every Fenwick tree of capacity `n < 2 ^ 30` (the
descent is capped at bit 29 by the source's `for l in (0..30).rev()`, so
larger trees are excluded) and every predicate that is monotonic over
prefix aggregates and true on the empty prefix, `bin_search_sum` returns
`(x, x + 1)` where `x` is the largest position whose prefix aggregate
satisfies the predicate; and the four concrete capacity-10 cases of the
claim hold as stated. -/
theorem c3_bin_search_amended :
    (∀ (t : FenwickTree ℤ) (v : ℕ → ℤ) (n : ℕ) (eval : ℤ → Bool),
      BITInv t.data v → t.data.length = n + 1 → n < 2 ^ 30 →
      (∀ y z : ℕ, y ≤ z → z ≤ n → eval (∑ j in Finset.Ioc 0 z, v j) = true →
        eval (∑ j in Finset.Ioc 0 y, v j) = true) →
      eval 0 = true →
      ∃ x, t.bin_search_sum eval = (x, x + 1) ∧ x ≤ n ∧
        eval (∑ j in Finset.Ioc 0 x, v j) = true ∧
        ∀ y, y ≤ n → eval (∑ j in Finset.Ioc 0 y, v j) = true → y ≤ x)
    ∧ (applyOps (FenwickTree.new ℤ 10) bsTestOps).map
        (fun t => t.bin_search_sum (fun val => decide (val ≤ 12))) = .ok (5, 6)
    ∧ (applyOps (FenwickTree.new ℤ 10) bsTestOps).map
        (fun t => t.bin_search_sum (fun val => decide (val ≤ -1))) = .ok (0, 1)
    ∧ (applyOps (FenwickTree.new ℤ 10) bsTestOps).map
        (fun t => t.bin_search_sum (fun val => decide (val ≤ 26))) = .ok (10, 11)
    ∧ (applyOps (FenwickTree.new ℤ 10) bsTestOps).map
        (fun t => t.bin_search_sum (fun val => decide (val ≤ 16))) = .ok (7, 8) := by
  refine ⟨?_, rfl, rfl, rfl, rfl⟩
  intro t v n eval hinv hlen hn hmono h0
  have hP0 : eval (∑ j in Finset.Ioc 0 0, v j) = true := by
    rw [show (∑ j in Finset.Ioc 0 0, v j) = 0 by simp]
    exact h0
  refine ⟨Nat.findGreatest (fun y => eval (∑ j in Finset.Ioc 0 y, v j) = true) n, ?_, ?_, ?_, ?_⟩
  · have hxs_le : Nat.findGreatest (fun y => eval (∑ j in Finset.Ioc 0 y, v j) = true) n ≤ n :=
      Nat.findGreatest_le n
    have hxs_true : eval (∑ j in Finset.Ioc 0
        (Nat.findGreatest (fun y => eval (∑ j in Finset.Ioc 0 y, v j) = true) n), v j) = true :=
      @Nat.findGreatest_spec 0 (fun y => eval (∑ j in Finset.Ioc 0 y, v j) = true) _ n
        (Nat.zero_le n) hP0
    have hcall := binSearchAux_correct t.data v hinv (by omega) eval
      (fun y z hyz hz ht => hmono y z hyz (by omega) ht)
      (Nat.findGreatest (fun y => eval (∑ j in Finset.Ioc 0 y, v j) = true) n)
      (by omega) hxs_true
      (fun y hy hPy => Nat.le_findGreatest (by omega) hPy)
      30 0 0 (dvd_zero _) (by simp) (Nat.zero_le _) (by omega)
    unfold FenwickTree.bin_search_sum FenwickTree.bin_search
    rw [hcall]
  · exact Nat.findGreatest_le n
  · exact @Nat.findGreatest_spec 0 (fun y => eval (∑ j in Finset.Ioc 0 y, v j) = true) _ n
      (Nat.zero_le n) hP0
  · intro y hy hPy
    exact Nat.le_findGreatest hy hPy

/-- Counterexample for C3 as stated: on a tree of capacity `2 ^ 30` with the
always-true (hence monotonic) predicate, the descent is capped at bit 29 and
returns `(2 ^ 30 - 1, 2 ^ 30)`, although the predicate also holds at the
strictly larger in-range prefix `2 ^ 30` (whose query succeeds, returning
`0`), so the returned component is not the largest satisfying position. -/
theorem c3_bin_search_counterexample :
    (FenwickTree.new ℤ (2 ^ 30)).bin_search_sum (fun _ => true) = (2 ^ 30 - 1, 2 ^ 30) ∧
    (FenwickTree.new ℤ (2 ^ 30)).prefix_sum (2 ^ 30) = .ok 0 ∧
    (2 ^ 30 - 1 : ℕ) ≠ 2 ^ 30 := by
  have hlen : (FenwickTree.new ℤ (2 ^ 30)).data.length = 2 ^ 30 + 1 := by
    simp only [FenwickTree.new, List.length_replicate]
  refine ⟨?_, ?_, by norm_num⟩
  · have hb := binSearchAux_true (FenwickTree.new ℤ (2 ^ 30)).data (fun s e => s + e) 30 0 0
      (by rw [hlen]; omega)
    unfold FenwickTree.bin_search_sum FenwickTree.bin_search
    simp only [hb]
    rw [Prod.mk.injEq]
    omega
  · unfold FenwickTree.prefix_sum FenwickTree.query
    rw [if_neg (by rw [hlen]; omega)]
    rw [queryLoop_new_zero]

/-- Witness for C3's general statement at a concrete input: capacity 2,
zero tree, always-true predicate; the largest satisfying position is 2. -/
theorem c3_bin_search_witness :
    (FenwickTree.new ℤ 2).bin_search_sum (fun _ => true) = (2, 3) := by
  obtain ⟨x, h1, h2, _, h4⟩ := c3_bin_search_amended.1 (FenwickTree.new ℤ 2) (fun _ => 0) 2
    (fun _ => true) (BITInv_new 2) (by simp [FenwickTree.new]) (by norm_num)
    (fun y z _ _ h => h) rfl
  have hx : x = 2 := le_antisymm h2 (h4 2 (le_refl 2) rfl)
  rw [hx] at h1
  exact h1

/-! ## `dopecomp_io`: the tokenizing input parser

`InParser` buffers its byte source; the model flattens the `BufReader`
chunks into the single list of not-yet-consumed bytes (the bytes from the
cursor onward), which is observationally equivalent for every operation of
the source.  Bytes are natural numbers below 256. -/

/-- Panics of the parser (`panic!("Outside of buffer")`, failed
`expect`/`unwrap`), plus the fuel sentinel of the loop embedding. -/
inductive ParseError where
  | outsideBuffer
  | malformedToken
  | outOfFuel
deriving DecidableEq

/-- `InParser`: remaining input bytes plus the end-of-file flag (which the
source only sets when a refill after consumption comes back empty, so a
freshly constructed parser has it `false` even on empty input). -/
structure InParser where
  buffer : List ℕ
  eof_flag : Bool
deriving DecidableEq

/-- `InParser::new`: fill the buffer, cursor at 0, `eof_flag` false. -/
def InParser.new (input : List ℕ) : InParser := ⟨input, false⟩

/-- `InParser::get_current_byte`: the byte at the cursor, or the
`"Outside of buffer"` panic. -/
def InParser.get_current_byte (p : InParser) : Except ParseError ℕ :=
  match p.buffer with
  | b :: _ => .ok b
  | [] => .error .outsideBuffer

/-- `InParser::advance_cursor`: consume one byte; when the buffer runs out
the refill determines the `eof_flag`. -/
def InParser.advance_cursor (p : InParser) : InParser :=
  match p.buffer with
  | _ :: rest => ⟨rest, rest.isEmpty⟩
  | [] => ⟨[], true⟩

/-- `InParser::skip_spaces`' `while` loop: skip `' '` and `'\n'` bytes. -/
def skipSpacesLoop : ℕ → InParser → Except ParseError InParser
  | 0, _ => .error .outOfFuel
  | fuel + 1, p =>
    if p.eof_flag then .ok p
    else
      match p.buffer with
      | [] => .error .outsideBuffer
      | b :: _ =>
        if b = 32 ∨ b = 10 then skipSpacesLoop fuel p.advance_cursor else .ok p

/-- `InParser::skip_spaces`. -/
def InParser.skip_spaces (p : InParser) : Except ParseError InParser :=
  skipSpacesLoop (p.buffer.length + 1) p

/-- `InParser::get_token`'s accumulation loop: take bytes until a
delimiter (`' '` or `'\n'`) or end of input. -/
def getTokenLoop : ℕ → List ℕ → InParser → Except ParseError (List ℕ × InParser)
  | 0, _, _ => .error .outOfFuel
  | fuel + 1, acc, p =>
    if p.eof_flag then .ok (acc, p)
    else
      match p.buffer with
      | [] => .error .outsideBuffer
      | b :: _ =>
        if b ≠ 32 ∧ b ≠ 10 then getTokenLoop fuel (acc ++ [b]) p.advance_cursor
        else .ok (acc, p)

/-- `InParser::get_token`: skip delimiters, then collect the token bytes. -/
def InParser.get_token (p : InParser) : Except ParseError (List ℕ × InParser) :=
  match p.skip_spaces with
  | .error e => .error e
  | .ok p₁ => getTokenLoop (p₁.buffer.length + 1) [] p₁

/-- Unicode-whitespace bytes in the ASCII range, as removed by the
`str::trim` call of `InParser::read_string`. -/
def isWsByte (b : ℕ) : Bool := decide (b = 9 ∨ b = 10 ∨ b = 11 ∨ b = 12 ∨ b = 13 ∨ b = 32)

/-- The `str::trim` of `InParser::read_string`, on ASCII byte content. -/
def trimBytes (bs : List ℕ) : List ℕ :=
  ((bs.dropWhile isWsByte).reverse.dropWhile isWsByte).reverse

/-- Value of a digit string. -/
def digitsVal (digits : List ℕ) : ℕ :=
  digits.foldl (fun acc b => acc * 10 + (b - 48)) 0

/-- `i64::from_str` on a byte string: optional sign, one or more ASCII
digits, nothing else, value within the `i64` range (Rust's checked
accumulation fails exactly when the final value is out of range). -/
def parseI64 (bs : List ℕ) : Option ℤ :=
  match bs with
  | [] => none
  | b :: rest =>
    let sgn : ℤ := if b = 45 then -1 else 1
    let digits := if b = 45 ∨ b = 43 then rest else bs
    if digits = [] then none
    else if digits.all (fun d => decide (48 ≤ d ∧ d ≤ 57)) then
      if -2 ^ 63 ≤ sgn * (digitsVal digits : ℤ) ∧ sgn * (digitsVal digits : ℤ) ≤ 2 ^ 63 - 1 then
        some (sgn * (digitsVal digits : ℤ))
      else none
    else none

/-- Parse outcome of a fetched token, for `InParser::read::<i64>`: the
token's text (trimmed, as in `read_string`) parsed by `i64::from_str`, with
`unwrap`'s panic on failure.  The source's separate UTF-8 decoding panic is
collapsed into the same fatal error: a token that is not pure ASCII either
fails UTF-8 decoding or fails the numeric parse, and both abort. -/
def readFromToken (tok : List ℕ) (p' : InParser) : Except ParseError (ℤ × InParser) :=
  match parseI64 (trimBytes tok) with
  | some z => .ok (z, p')
  | none => .error .malformedToken

/-- `InParser::read::<i64>`: `read_string().parse::<i64>().unwrap()`. -/
def InParser.read (p : InParser) : Except ParseError (ℤ × InParser) :=
  match p.get_token with
  | .error e => .error e
  | .ok (tok, p') => readFromToken tok p'

/-- `InParser::read_number`'s digit loop: accumulate
`nr = nr * 10 + (byte - b'0')` (wrapping `i64` arithmetic) while the
current byte is an ASCII digit. -/
def readDigitsLoop : ℕ → ℤ → InParser → Except ParseError (ℤ × InParser)
  | 0, _, _ => .error .outOfFuel
  | fuel + 1, nr, p =>
    if p.eof_flag then .ok (nr, p)
    else
      match p.buffer with
      | [] => .error .outsideBuffer
      | b :: _ =>
        if 48 ≤ b ∧ b ≤ 57 then
          readDigitsLoop fuel (wrap64 (nr * 10 + ((b : ℤ) - 48))) p.advance_cursor
        else .ok (nr, p)

/-- `InParser::read_number::<i64>`: skip spaces, read an optional minus
sign, accumulate digits, and return `nr * sgn` — with no check that any
digit was present.  (The source computes `sgn` once and multiplies at the
end; the two branches here inline the two values of `sgn`.) -/
def InParser.read_number (p : InParser) : Except ParseError (ℤ × InParser) :=
  match p.skip_spaces with
  | .error e => .error e
  | .ok p₁ =>
    match p₁.get_current_byte with
    | .error e => .error e
    | .ok b =>
      if b = 45 then
        match readDigitsLoop (p₁.advance_cursor.buffer.length + 1) 0 p₁.advance_cursor with
        | .error e => .error e
        | .ok (nr, p₂) => .ok (wrap64 (nr * (-1)), p₂)
      else
        match readDigitsLoop (p₁.buffer.length + 1) 0 p₁ with
        | .error e => .error e
        | .ok (nr, p₂) => .ok (wrap64 (nr * 1), p₂)

/-- `skip_spaces` is the identity when the current byte is not a delimiter. -/
theorem skip_spaces_no_ws (p : InParser) (b : ℕ) (rest : List ℕ)
    (heof : p.eof_flag = false) (hbuf : p.buffer = b :: rest)
    (h32 : b ≠ 32) (h10 : b ≠ 10) : p.skip_spaces = .ok p := by
  unfold InParser.skip_spaces
  rw [hbuf]
  rw [skipSpacesLoop]
  rw [heof]
  simp only [Bool.false_eq_true, if_false]
  rw [hbuf]
  show (if b = 32 ∨ b = 10 then skipSpacesLoop (b :: rest).length p.advance_cursor
    else Except.ok p) = Except.ok p
  rw [if_neg (by omega)]

/-- C9 (amended): reading a number with `read` (tokenize, then
`parse::<i64>().unwrap()`) is a fatal parse error on every token that is
not a well-formed `i64` numeral; `read_number`, by contrast, is not fatal
on malformed input: whenever the first byte after the skipped delimiters is
neither a minus sign nor an ASCII digit, it succeeds, returning `0` with
the offending bytes left unconsumed. -/
theorem c9_malformed_token_amended :
    (∀ (p : InParser) (tok : List ℕ) (p' : InParser),
      p.get_token = .ok (tok, p') → parseI64 (trimBytes tok) = none →
      p.read = .error .malformedToken)
    ∧ (∀ (p : InParser) (b : ℕ) (rest : List ℕ),
      p.eof_flag = false → p.buffer = b :: rest →
      b ≠ 32 → b ≠ 10 → b ≠ 45 → ¬(48 ≤ b ∧ b ≤ 57) →
      p.read_number = .ok (0, p)) := by
  constructor
  · intro p tok p' hg hp
    unfold InParser.read
    rw [hg]
    show readFromToken tok p' = .error .malformedToken
    unfold readFromToken
    rw [hp]
  · intro p b rest heof hbuf h32 h10 h45 hdig
    unfold InParser.read_number
    rw [skip_spaces_no_ws p b rest heof hbuf h32 h10]
    show (match p.get_current_byte with
      | Except.error e => Except.error e
      | Except.ok b =>
        if b = 45 then
          match readDigitsLoop (p.advance_cursor.buffer.length + 1) 0 p.advance_cursor with
          | Except.error e => Except.error e
          | Except.ok (nr, p₂) => Except.ok (wrap64 (nr * (-1)), p₂)
        else
          match readDigitsLoop (p.buffer.length + 1) 0 p with
          | Except.error e => Except.error e
          | Except.ok (nr, p₂) => Except.ok (wrap64 (nr * 1), p₂)) = Except.ok ((0 : ℤ), p)
    have hcur : p.get_current_byte = .ok b := by
      unfold InParser.get_current_byte
      rw [hbuf]
    rw [hcur]
    show (if b = 45 then
        match readDigitsLoop (p.advance_cursor.buffer.length + 1) 0 p.advance_cursor with
        | Except.error e => Except.error e
        | Except.ok (nr, p₂) => Except.ok (wrap64 (nr * (-1)), p₂)
      else
        match readDigitsLoop (p.buffer.length + 1) 0 p with
        | Except.error e => Except.error e
        | Except.ok (nr, p₂) => Except.ok (wrap64 (nr * 1), p₂)) = Except.ok ((0 : ℤ), p)
    rw [if_neg h45]
    have hloop : readDigitsLoop (p.buffer.length + 1) 0 p = .ok (0, p) := by
      rw [hbuf]
      rw [readDigitsLoop]
      rw [heof]
      simp only [Bool.false_eq_true, if_false]
      rw [hbuf]
      show (if 48 ≤ b ∧ b ≤ 57 then
          readDigitsLoop (b :: rest).length (wrap64 (0 * 10 + ((b : ℤ) - 48))) p.advance_cursor
        else Except.ok (0, p)) = Except.ok ((0 : ℤ), p)
      rw [if_neg hdig]
    rw [hloop]
    show Except.ok (wrap64 (0 * 1), p) = Except.ok ((0 : ℤ), p)
    unfold wrap64
    norm_num

/-- Witness for C9's amended statement at the concrete input `"abc"`
(bytes 97, 98, 99). -/
theorem c9_malformed_token_witness :
    (InParser.new [97, 98, 99]).read = .error .malformedToken ∧
    (InParser.new [97, 98, 99]).read_number = .ok (0, InParser.new [97, 98, 99]) :=
  ⟨c9_malformed_token_amended.1 (InParser.new [97, 98, 99]) [97, 98, 99] ⟨[], true⟩ rfl rfl,
   c9_malformed_token_amended.2 (InParser.new [97, 98, 99]) 97 [98, 99] rfl rfl
     (by decide) (by decide) (by decide) (by decide)⟩

/-- Counterexample for C9 as stated: on the malformed token `"abc"`,
`read_number` is not a fatal parse error — it succeeds and returns `0`,
leaving the parser state untouched (while `read` does fail). -/
theorem c9_malformed_token_counterexample :
    (InParser.new [97, 98, 99]).read_number = .ok (0, InParser.new [97, 98, 99]) ∧
    (InParser.new [97, 98, 99]).read = .error .malformedToken := ⟨rfl, rfl⟩

/-! ## `dopecomp_graph`: the graph container -/

/-- Panics of the graph and Euler-solver code (out-of-bounds vector
indexing), plus the fuel sentinel of the DFS embedding. -/
inductive EulerError where
  | indexOutOfBounds
  | outOfFuel
deriving DecidableEq

/-- The `Edge` trait: resolve the node this edge points to, given the node
it was reached from. -/
class Edge (E : Type) where
  «to» : E → ℕ → ℕ

/-- The `BidirectionalEdge` trait: the pair of nodes the edge connects. -/
class BidirectionalEdge (E : Type) extends Edge E where
  as_pair : E → ℕ × ℕ

/-- `impl Edge for usize`: a directed edge storing only its destination. -/
instance : Edge ℕ := ⟨fun e _ => e⟩

/-- `impl Edge for (usize, usize)`: endpoint resolution by the XOR trick
`self.0 ^ self.1 ^ from`. -/
instance : Edge (ℕ × ℕ) := ⟨fun e f => e.1 ^^^ e.2 ^^^ f⟩

/-- `impl BidirectionalEdge for (usize, usize)`. -/
instance : BidirectionalEdge (ℕ × ℕ) := { as_pair := fun e => e }

/-- The `Graph` struct of `dopecomp_graph`. -/
structure Graph (V E : Type) where
  nodes : List V
  edges : List E
  adj_list : List (List ℕ)
  undirected : Bool
deriving DecidableEq

/-- `Graph::v()`. -/
def Graph.v {V E : Type} (g : Graph V E) : ℕ := g.nodes.length

/-- `Graph::e()`. -/
def Graph.e {V E : Type} (g : Graph V E) : ℕ := g.edges.length

/-- Checked vector read; Rust indexing panics out of bounds. -/
def listIdx {α : Type} (l : List α) (i : ℕ) : Except EulerError α :=
  match l[i]? with
  | some a => .ok a
  | none => .error .indexOutOfBounds

/-- Checked `capacity[i] += 1`. -/
def listInc (l : List ℕ) (i : ℕ) : Except EulerError (List ℕ) :=
  match l[i]? with
  | some a => .ok (l.set i (a + 1))
  | none => .error .indexOutOfBounds

/-- Checked `adj_list[i].push(id)`. -/
def listPush (l : List (List ℕ)) (i : ℕ) (id : ℕ) : Except EulerError (List (List ℕ)) :=
  match l[i]? with
  | some a => .ok (l.set i (a ++ [id]))
  | none => .error .indexOutOfBounds

/-- `Graph::from_edges`: count per-node incidences (the capacity pass, kept
for its bounds-checking panics), fill the adjacency lists in edge-id order
(undirected edges are pushed at both endpoints), then map the edges
through `transf`. -/
def Graph.from_edges {V E T : Type} [Inhabited V] [BidirectionalEdge T]
    (v : ℕ) (edges : List T) (transf : T → E) (undirected : Bool) :
    Except EulerError (Graph V E) := do
  let _capacity ← edges.foldlM
    (fun cap t => do
      let cap ← listInc cap (BidirectionalEdge.as_pair t).1
      if undirected then listInc cap (BidirectionalEdge.as_pair t).2 else pure cap)
    (List.replicate v (0 : ℕ))
  let adj_list ← edges.enum.foldlM
    (fun adj it => do
      let adj ← listPush adj (BidirectionalEdge.as_pair it.2).1 it.1
      if undirected then listPush adj (BidirectionalEdge.as_pair it.2).2 it.1 else pure adj)
    (List.replicate v ([] : List ℕ))
  pure ⟨List.replicate v default, edges.map transf, adj_list, undirected⟩

/-- C10: for the pair edge type, `Edge::to` computed as `a ^ b ^ from`
resolves the other endpoint — `to(a) = b` and `to(b) = a` — and for a
self-loop `(u, u)`, `to(u) = u`. -/
theorem c10_xor_edge_resolution :
    (∀ a b : ℕ, Edge.to ((a, b) : ℕ × ℕ) a = b ∧ Edge.to ((a, b) : ℕ × ℕ) b = a) ∧
    (∀ u : ℕ, Edge.to ((u, u) : ℕ × ℕ) u = u) := by
  constructor
  · intro a b
    constructor
    · show a ^^^ b ^^^ a = b
      rw [Nat.xor_comm a b, Nat.xor_assoc, Nat.xor_self, Nat.xor_zero]
    · show a ^^^ b ^^^ b = a
      rw [Nat.xor_assoc, Nat.xor_self, Nat.xor_zero]
  · intro u
    show u ^^^ u ^^^ u = u
    rw [Nat.xor_self, Nat.zero_xor]

/-! ## `dopecomp_euler`: the Eulerian path/cycle solver -/

/-- The transient `EulerianCycleSolver` state. -/
structure EulerState where
  used_edge : List Bool
  last_edge : List ℕ
  result : List ℕ
deriving DecidableEq

/-- `EulerianCycleSolver::eulerian_dfs`: the edge-consuming DFS.  One call
embeds the whole `while` loop of one Rust invocation (each recursive call
either continues the loop or is the nested DFS into the resolved
endpoint), followed by the post-order push of `node`.  Note the source
re-reads `self.last_edge[node]` after the nested call before incrementing:
the cursor is shared per node, not per stack frame. -/
def eulerian_dfs {V E : Type} [Edge E] (g : Graph V E) :
    ℕ → ℕ → EulerState → Except EulerError EulerState
  | 0, _, _ => .error .outOfFuel
  | fuel + 1, node, st =>
    match listIdx st.last_edge node with
    | .error e => .error e
    | .ok cur =>
      match listIdx g.adj_list node with
      | .error e => .error e
      | .ok adjn =>
        if h : cur < adjn.length then
          match listIdx st.used_edge (adjn.get ⟨cur, h⟩) with
          | .error e => .error e
          | .ok used =>
            if used then
              eulerian_dfs g fuel node
                { st with last_edge := st.last_edge.set node (cur + 1) }
            else
              match listIdx g.edges (adjn.get ⟨cur, h⟩) with
              | .error e => .error e
              | .ok ed =>
                match eulerian_dfs g fuel (Edge.to ed node)
                    { st with used_edge := st.used_edge.set (adjn.get ⟨cur, h⟩) true } with
                | .error e => .error e
                | .ok st₂ =>
                  match listIdx st₂.last_edge node with
                  | .error e => .error e
                  | .ok cur₂ =>
                    eulerian_dfs g fuel node
                      { st₂ with last_edge := st₂.last_edge.set node (cur₂ + 1) }
        else
          .ok { st with result := st.result ++ [node] }

/-- The body of the inner degree loop: `degree[edge.to(node)] += 1` for one
adjacency entry `it` of `node`. -/
def degreeEdgeStep {V E : Type} [Edge E] (g : Graph V E) (node : ℕ)
    (degree : List ℕ) (it : ℕ) : Except EulerError (List ℕ) := do
  let ed ← listIdx g.edges it
  listInc degree (Edge.to ed node)

/-- The body of the outer degree loop: walk `node`'s adjacency list. -/
def degreeNodeStep {V E : Type} [Edge E] (g : Graph V E)
    (degree : List ℕ) (node : ℕ) : Except EulerError (List ℕ) := do
  let adjn ← listIdx g.adj_list node
  adjn.foldlM (degreeEdgeStep g node) degree

/-- The degree-computation loop of `solve_eulerian`: for every adjacency
entry of every node, resolve the edge's other endpoint and increment that
endpoint's counter. -/
def computeDegree {V E : Type} [Edge E] (g : Graph V E) : Except EulerError (List ℕ) :=
  (List.range g.v).foldlM (degreeNodeStep g) (List.replicate g.v (0 : ℕ))

/-- The body of the start-node/count loop of `solve_eulerian`: accumulator
`(start_node, cnt_even, cnt_pos, cnt_neg)`. -/
def feasibilityStep {V E : Type} [Edge E] (g : Graph V E) (undirected : Bool)
    (degree : List ℕ) (acc : ℕ × ℕ × ℕ × ℕ) (node : ℕ) :
    Except EulerError (ℕ × ℕ × ℕ × ℕ) := do
  let d ← listIdx degree node
  if undirected then
    if d % 2 = 1 then pure (node, acc.2.1 + 1, acc.2.2.1, acc.2.2.2)
    else pure acc
  else do
    let adjn ← listIdx g.adj_list node
    if d < adjn.length then pure (node, acc.2.1, acc.2.2.1 + 1, acc.2.2.2)
    else if d > adjn.length then pure (acc.1, acc.2.1, acc.2.2.1, acc.2.2.2 + 1)
    else pure acc

/-- The start-node/count loop of `solve_eulerian`. -/
def feasibilityScan {V E : Type} [Edge E] (g : Graph V E) (undirected : Bool)
    (degree : List ℕ) : Except EulerError (ℕ × ℕ × ℕ × ℕ) :=
  (List.range g.v).foldlM (feasibilityStep g undirected degree)
    ((0, 0, 0, 0) : ℕ × ℕ × ℕ × ℕ)

/-- The pre-traversal part of `solve_eulerian`: the degree computation and
the degree-condition checks.  Returns `none` when the attempt is rejected
before any traversal, otherwise the chosen start node. -/
def eulerianFeasibility {V E : Type} [Edge E] (g : Graph V E) (undirected cycle : Bool) :
    Except EulerError (Option ℕ) := do
  let degree ← computeDegree g
  let scan ← feasibilityScan g undirected degree
  if undirected then
    if scan.2.1 > 2 then pure none
    else if cycle = true ∧ scan.2.1 > 0 then pure none
    else pure (some scan.1)
  else
    if scan.2.2.1 > 1 ∨ scan.2.2.2 > 1 then pure none
    else if cycle = true ∧ (scan.2.2.1 > 0 ∨ scan.2.2.2 > 0) then pure none
    else pure (some scan.1)

/-- Fuel bound for the DFS: one unit per cursor advance plus two per edge
consumption, plus one; the DFS of the source performs strictly fewer
nested calls on any `usize`-domain input. -/
def dfsFuel {V E : Type} (g : Graph V E) : ℕ :=
  (g.adj_list.map List.length).sum + 2 * g.e + 1

/-- `solve_eulerian`: degree feasibility check, then the DFS traversal from
the chosen start node, then the completeness check
`result.len() == e() + 1`, reversing the result for directed graphs. -/
def solve_eulerian {V E : Type} [Edge E] (g : Graph V E) (undirected cycle : Bool) :
    Except EulerError (Option (List ℕ)) :=
  match eulerianFeasibility g undirected cycle with
  | .error e => .error e
  | .ok none => .ok none
  | .ok (some start_node) =>
    match eulerian_dfs g (dfsFuel g) start_node
        ⟨List.replicate g.e false, List.replicate g.v 0, []⟩ with
    | .error e => .error e
    | .ok st =>
      if st.result.length ≠ g.e + 1 then .ok none
      else if undirected then .ok (some st.result)
      else .ok (some st.result.reverse)

/-- `find_eulerian_cycle`. -/
def find_eulerian_cycle {V E : Type} [Edge E] (g : Graph V E) :
    Except EulerError (Option (List ℕ)) :=
  solve_eulerian g g.undirected true

/-- `find_eulerian_path`. -/
def find_eulerian_path {V E : Type} [Edge E] (g : Graph V E) :
    Except EulerError (Option (List ℕ)) :=
  solve_eulerian g g.undirected false

/-- The multiset of consecutive pairs of a node sequence. -/
def seqPairs (l : List ℕ) : Multiset (ℕ × ℕ) := (l.zip l.tail : List (ℕ × ℕ))

/-- C1 (code bug): on the directed graph with two nodes and the duplicated
edge `(0, 1)` twice, the imbalance check passes (`cnt_pos = cnt_neg = 1`,
although the imbalance magnitude is 2), the DFS consumes both edges and the
result has length `e() + 1`, so `find_eulerian_path` returns
`Some [0, 1, 1]` — whose consecutive-pair multiset `{(0,1), (1,1)}` is not
the graph's edge multiset `{(0,1), (0,1)}`: no Eulerian path exists in this
graph, contradicting both the claim and the function's own documentation. -/
theorem c1_eulerian_round_trip_code_bug :
    (Graph.from_edges 2 [(0, 1), (0, 1)] Prod.snd false
        : Except EulerError (Graph Unit ℕ))
      = .ok ⟨[(), ()], [1, 1], [[0, 1], []], false⟩ ∧
    find_eulerian_path (⟨[(), ()], [1, 1], [[0, 1], []], false⟩ : Graph Unit ℕ)
      = .ok (some [0, 1, 1]) ∧
    seqPairs [0, 1, 1] = ({(0, 1), (1, 1)} : Multiset (ℕ × ℕ)) ∧
    seqPairs [0, 1, 1] ≠ ({(0, 1), (0, 1)} : Multiset (ℕ × ℕ)) := by
  refine ⟨rfl, rfl, by decide, by decide⟩

/-- Well-formedness of a graph, as needed by the solver: the adjacency
index covers the nodes, and every adjacency entry is a valid edge id whose
resolution from that node is a valid node id.  Graphs built by
`from_edges` from in-range endpoint lists satisfy this. -/
def WF {V E : Type} [Edge E] (g : Graph V E) : Prop :=
  g.adj_list.length = g.nodes.length ∧
  ∀ x adjn, g.adj_list[x]? = some adjn → ∀ id ∈ adjn,
    ∃ ed, g.edges[id]? = some ed ∧ Edge.to ed x < g.nodes.length

/-- Adjacency list of a node (`[]` for out-of-range ids). -/
def adjOf {V E : Type} (g : Graph V E) (x : ℕ) : List ℕ := g.adj_list[x]?.getD []

/-- Adjacency-list length of a node (0 for out-of-range ids). -/
def adjLenAt {V E : Type} (g : Graph V E) (x : ℕ) : ℕ := (g.adj_list[x]?.getD []).length

/-- Cursor value of a node (0 for out-of-range ids). -/
def curAt (st : EulerState) (x : ℕ) : ℕ := st.last_edge[x]?.getD 0

/-- Total remaining cursor slack: for each node, how many adjacency entries
its cursor has not yet passed. -/
def cursorSlack {V E : Type} (g : Graph V E) (st : EulerState) : ℕ :=
  ∑ x in Finset.range g.adj_list.length, (adjLenAt g x - curAt st x)

/-- Number of not-yet-consumed edges. -/
def unusedCount (st : EulerState) : ℕ :=
  ∑ i in Finset.range st.used_edge.length,
    (if st.used_edge[i]?.getD true = false then 1 else 0)

/-- Termination measure of the DFS: every execution step either advances a
cursor or consumes an edge (the latter worth two units, covering the
nested call and the later cursor advance past the consumed entry). -/
def dfsMeasure {V E : Type} (g : Graph V E) (st : EulerState) : ℕ :=
  cursorSlack g st + 2 * unusedCount st

theorem listIdx_some {α : Type} (l : List α) (i : ℕ) (a : α) (h : l[i]? = some a) :
    listIdx l i = .ok a := by
  unfold listIdx
  rw [h]

theorem getElem?_lt_length {α : Type} (l : List α) (i : ℕ) (a : α) (h : l[i]? = some a) :
    i < l.length := by
  by_contra hc
  rw [List.getElem?_eq_none (by omega)] at h
  exact Option.noConfusion h

/-- `cursorSlack` ignores the `used_edge` component. -/
theorem cursorSlack_mark {V E : Type} (g : Graph V E) (st : EulerState) (u : List Bool) :
    cursorSlack g { st with used_edge := u } = cursorSlack g st := rfl

/-- `unusedCount` ignores the `last_edge` and `result` components. -/
theorem unusedCount_cursor (st : EulerState) (le : List ℕ) :
    unusedCount { st with last_edge := le } = unusedCount st := rfl

theorem curAt_set_self (st : EulerState) (node c : ℕ) (h : node < st.last_edge.length) :
    curAt { st with last_edge := st.last_edge.set node c } node = c := by
  unfold curAt
  show (st.last_edge.set node c)[node]?.getD 0 = c
  rw [List.getElem?_set_self h]
  rfl

theorem curAt_set_other (st : EulerState) (node c x : ℕ) (h : x ≠ node) :
    curAt { st with last_edge := st.last_edge.set node c } x = curAt st x := by
  unfold curAt
  show (st.last_edge.set node c)[x]?.getD 0 = st.last_edge[x]?.getD 0
  rw [List.getElem?_set_ne (fun hc => h hc.symm)]

/-- Advancing a cursor (weakly) decreases the slack. -/
theorem cursorSlack_set_le {V E : Type} (g : Graph V E) (st : EulerState) (node c : ℕ)
    (h : curAt st node ≤ c) :
    cursorSlack g { st with last_edge := st.last_edge.set node c } ≤ cursorSlack g st := by
  apply Finset.sum_le_sum
  intro x _
  by_cases hx : x = node
  · subst hx
    by_cases hlen : x < st.last_edge.length
    · rw [curAt_set_self st x c hlen]
      omega
    · have hset : st.last_edge.set x c = st.last_edge := List.set_eq_of_length_le (by omega)
      show adjLenAt g x - curAt { st with last_edge := st.last_edge.set x c } x ≤ _
      rw [hset]
  · rw [curAt_set_other st node c x hx]

/-- Advancing a node's cursor while it still has unseen adjacency entries
strictly decreases the slack. -/
theorem cursorSlack_set_lt {V E : Type} (g : Graph V E) (st : EulerState) (node c : ℕ)
    (hnode : node < g.adj_list.length) (hlen : node < st.last_edge.length)
    (hcur : curAt st node < adjLenAt g node) (hc : curAt st node < c) :
    cursorSlack g { st with last_edge := st.last_edge.set node c } < cursorSlack g st := by
  apply Finset.sum_lt_sum
  · intro x _
    by_cases hx : x = node
    · subst hx
      rw [curAt_set_self st x c hlen]
      omega
    · rw [curAt_set_other st node c x hx]
  · refine ⟨node, Finset.mem_range.mpr hnode, ?_⟩
    rw [curAt_set_self st node c hlen]
    omega

/-- Marking an unused edge used decreases the unused count by exactly one. -/
theorem unusedCount_set_true (st : EulerState) (id : ℕ)
    (h : st.used_edge[id]? = some false) :
    unusedCount { st with used_edge := st.used_edge.set id true } + 1 = unusedCount st := by
  have hlt : id < st.used_edge.length := getElem?_lt_length _ _ _ h
  have hmem : id ∈ Finset.range st.used_edge.length := Finset.mem_range.mpr hlt
  unfold unusedCount
  show (∑ i in Finset.range (st.used_edge.set id true).length,
      (if (st.used_edge.set id true)[i]?.getD true = false then 1 else 0)) + 1 = _
  rw [List.length_set]
  rw [← Finset.sum_erase_add _ _ hmem, ← Finset.sum_erase_add _ _ hmem]
  have hrest : ∑ i in (Finset.range st.used_edge.length).erase id,
      (if (st.used_edge.set id true)[i]?.getD true = false then 1 else 0)
      = ∑ i in (Finset.range st.used_edge.length).erase id,
        (if st.used_edge[i]?.getD true = false then 1 else 0) := by
    apply Finset.sum_congr rfl
    intro i hi
    rw [List.getElem?_set_ne (Finset.ne_of_mem_erase hi).symm]
  rw [hrest]
  rw [List.getElem?_set_self hlt, h]
  simp

/-- A state with an unused edge has positive unused count. -/
theorem unusedCount_pos (st : EulerState) (id : ℕ) (h : st.used_edge[id]? = some false) :
    1 ≤ unusedCount st := by
  have hlt : id < st.used_edge.length := getElem?_lt_length _ _ _ h
  unfold unusedCount
  calc (1 : ℕ) = (if st.used_edge[id]?.getD true = false then 1 else 0) := by rw [h]; rfl
  _ ≤ _ := Finset.single_le_sum (f := fun i => if st.used_edge[i]?.getD true = false then 1 else 0)
      (fun i _ => by positivity) (Finset.mem_range.mpr hlt)

/-- One-step unfolding of the DFS once the cursor and adjacency reads are
resolved. -/
theorem eulerian_dfs_step {V E : Type} [Edge E] (g : Graph V E) (fuel node : ℕ)
    (st : EulerState) (cur : ℕ) (hcur : st.last_edge[node]? = some cur)
    (adjn : List ℕ) (hadj : g.adj_list[node]? = some adjn) :
    eulerian_dfs g (fuel + 1) node st =
      if h : cur < adjn.length then
        match listIdx st.used_edge (adjn.get ⟨cur, h⟩) with
        | .error e => .error e
        | .ok used =>
          if used then
            eulerian_dfs g fuel node { st with last_edge := st.last_edge.set node (cur + 1) }
          else
            match listIdx g.edges (adjn.get ⟨cur, h⟩) with
            | .error e => .error e
            | .ok ed =>
              match eulerian_dfs g fuel (Edge.to ed node)
                  { st with used_edge := st.used_edge.set (adjn.get ⟨cur, h⟩) true } with
              | .error e => .error e
              | .ok st₂ =>
                match listIdx st₂.last_edge node with
                | .error e => .error e
                | .ok cur₂ =>
                  eulerian_dfs g fuel node
                    { st₂ with last_edge := st₂.last_edge.set node (cur₂ + 1) }
      else .ok { st with result := st.result ++ [node] } := by
  rw [eulerian_dfs]
  rw [listIdx_some _ _ _ hcur, listIdx_some _ _ _ hadj]

/-- Setting any used flag preserves flags that are already `true`. -/
theorem usedMono_set (l : List Bool) (id i : ℕ) (h : l[i]? = some true) :
    (l.set id true)[i]? = some true := by
  by_cases hx : id = i
  · subst hx
    rw [List.getElem?_set_self (getElem?_lt_length _ _ _ h)]
  · rw [List.getElem?_set_ne hx]
    exact h

/-- Main specification bundle of the edge-consuming DFS on a well-formed
graph: with fuel exceeding the measure, the DFS returns successfully; it
preserves the state-vector lengths, never decreases cursors or unmarks
edges, appends a nonempty segment to the result that ends with the node of
the call and whose length is one more than the number of edges consumed,
and leaves the called node's cursor past the end of its adjacency list. -/
theorem dfs_spec {V E : Type} [Edge E] (g : Graph V E) (hwf : WF g)
    (S : ℕ → Prop)
    (hSc : ∀ x, S x → ∀ id ∈ adjOf g x, ∀ ed, g.edges[id]? = some ed →
      S (Edge.to ed x)) :
    ∀ fuel node st, node < g.nodes.length → S node →
      st.used_edge.length = g.e → st.last_edge.length = g.nodes.length →
      dfsMeasure g st < fuel →
      ∃ st', eulerian_dfs g fuel node st = .ok st' ∧
        st'.used_edge.length = st.used_edge.length ∧
        st'.last_edge.length = st.last_edge.length ∧
        cursorSlack g st' ≤ cursorSlack g st ∧
        unusedCount st' ≤ unusedCount st ∧
        (∀ i : ℕ, st.used_edge[i]? = some true → st'.used_edge[i]? = some true) ∧
        (∀ i : ℕ, st'.used_edge[i]? = some true →
          st.used_edge[i]? = some true ∨ ∃ x, S x ∧ i ∈ adjOf g x) ∧
        (∃ P, st'.result = st.result ++ P ∧ P ≠ [] ∧ P.getLast? = some node ∧
          P.length + unusedCount st' = 1 + unusedCount st) ∧
        adjLenAt g node ≤ curAt st' node := by
  intro fuel
  induction fuel with
  | zero =>
    intro node st _ _ _ _ hm
    omega
  | succ fuel ih =>
    intro node st hnode hSnode hul hll hm
    have hllt : node < st.last_edge.length := by omega
    obtain ⟨cur, hcur⟩ : ∃ c, st.last_edge[node]? = some c :=
      ⟨_, List.getElem?_eq_getElem hllt⟩
    have hadjlen : g.adj_list.length = g.nodes.length := hwf.1
    have hadjlt : node < g.adj_list.length := by omega
    obtain ⟨adjn, hadj⟩ : ∃ a, g.adj_list[node]? = some a :=
      ⟨_, List.getElem?_eq_getElem hadjlt⟩
    have hadjLenAt : adjLenAt g node = adjn.length := by
      unfold adjLenAt
      rw [hadj]
      rfl
    have hcurAt : curAt st node = cur := by
      unfold curAt
      rw [hcur]
      rfl
    by_cases hguard : cur < adjn.length
    · have hidmem : adjn.get ⟨cur, hguard⟩ ∈ adjn := List.get_mem adjn cur hguard
      obtain ⟨ed, hed, hto⟩ := hwf.2 node adjn hadj _ hidmem
      have hide : adjn.get ⟨cur, hguard⟩ < g.edges.length := getElem?_lt_length _ _ _ hed
      have hidu : adjn.get ⟨cur, hguard⟩ < st.used_edge.length := by
        unfold Graph.e at hul
        omega
      obtain ⟨b, hb⟩ : ∃ b, st.used_edge[adjn.get ⟨cur, hguard⟩]? = some b :=
        ⟨_, List.getElem?_eq_getElem hidu⟩
      cases b with
      | true =>
        have hstep : eulerian_dfs g (fuel + 1) node st =
            eulerian_dfs g fuel node { st with last_edge := st.last_edge.set node (cur + 1) } := by
          rw [eulerian_dfs_step g fuel node st cur hcur adjn hadj, dif_pos hguard,
            listIdx_some _ _ _ hb]
          rfl
        rw [hstep]
        have hμa : dfsMeasure g { st with last_edge := st.last_edge.set node (cur + 1) }
            < fuel := by
          have h1 := cursorSlack_set_lt g st node (cur + 1) hadjlt hllt
            (by omega) (by omega)
          have h2 : unusedCount { st with last_edge := st.last_edge.set node (cur + 1) }
              = unusedCount st := unusedCount_cursor st _
          unfold dfsMeasure at hm ⊢
          omega
        obtain ⟨st', hok, hb1, hb2, hb3, hb4, hb5, hb6, ⟨P, hP, hPne, hPlast, hPlen⟩, hb7⟩ :=
          ih node { st with last_edge := st.last_edge.set node (cur + 1) } hnode hSnode hul
            (by simp [hll]) hμa
        refine ⟨st', hok, hb1, by simpa using hb2, ?_, ?_, hb5, hb6,
          ⟨P, hP, hPne, hPlast, ?_⟩, hb7⟩
        · exact hb3.trans (cursorSlack_set_le g st node (cur + 1) (by omega))
        · exact hb4.trans (le_of_eq (unusedCount_cursor st _))
        · rw [hPlen]
          rw [unusedCount_cursor st _]
      | false =>
        have hstep : eulerian_dfs g (fuel + 1) node st =
            (match eulerian_dfs g fuel (Edge.to ed node)
                { st with used_edge := st.used_edge.set (adjn.get ⟨cur, hguard⟩) true } with
             | .error e => .error e
             | .ok st₂ =>
               match listIdx st₂.last_edge node with
               | .error e => .error e
               | .ok cur₂ =>
                 eulerian_dfs g fuel node
                   { st₂ with last_edge := st₂.last_edge.set node (cur₂ + 1) }) := by
          rw [eulerian_dfs_step g fuel node st cur hcur adjn hadj, dif_pos hguard,
            listIdx_some _ _ _ hb, listIdx_some _ _ _ hed]
          rfl
        have hμb : dfsMeasure g { st with used_edge := st.used_edge.set (adjn.get ⟨cur, hguard⟩) true } + 2
            = dfsMeasure g st := by
          have h1 := unusedCount_set_true st _ hb
          have h2 := cursorSlack_mark g st (st.used_edge.set (adjn.get ⟨cur, hguard⟩) true)
          unfold dfsMeasure
          omega
        have hadjOf : adjOf g node = adjn := by
          unfold adjOf
          rw [hadj]
          rfl
        have hSto : S (Edge.to ed node) :=
          hSc node hSnode _ (by rw [hadjOf]; exact hidmem) ed hed
        obtain ⟨st₂, hok₂, hc1, hc2, hc3, hc4, hc5, hc6, ⟨P₂, hP₂, hP₂ne, hP₂last, hP₂len⟩, hc7⟩ :=
          ih (Edge.to ed node) { st with used_edge := st.used_edge.set (adjn.get ⟨cur, hguard⟩) true }
            hto hSto (by simp [hul]) hll (by omega)
        have hll₂ : node < st₂.last_edge.length := by
          rw [hc2]
          exact hllt
        obtain ⟨cur₂, hcur₂⟩ : ∃ c, st₂.last_edge[node]? = some c :=
          ⟨_, List.getElem?_eq_getElem hll₂⟩
        have hcurAt₂ : curAt st₂ node = cur₂ := by
          unfold curAt
          rw [hcur₂]
          rfl
        have hstep1 : eulerian_dfs g (fuel + 1) node st =
            (match listIdx st₂.last_edge node with
             | .error e => .error e
             | .ok cur₂ =>
               eulerian_dfs g fuel node
                 { st₂ with last_edge := st₂.last_edge.set node (cur₂ + 1) }) := by
          rw [hstep, hok₂]
        have hstep2 : eulerian_dfs g (fuel + 1) node st =
            eulerian_dfs g fuel node
              { st₂ with last_edge := st₂.last_edge.set node (cur₂ + 1) } := by
          rw [hstep1, listIdx_some _ _ _ hcur₂]
        rw [hstep2]
        have hμc : dfsMeasure g { st₂ with last_edge := st₂.last_edge.set node (cur₂ + 1) }
            < fuel := by
          have h1 := cursorSlack_set_le g st₂ node (cur₂ + 1) (by omega)
          have h2 : unusedCount { st₂ with last_edge := st₂.last_edge.set node (cur₂ + 1) }
              = unusedCount st₂ := unusedCount_cursor st₂ _
          have h3 := cursorSlack_mark g st (st.used_edge.set (adjn.get ⟨cur, hguard⟩) true)
          unfold dfsMeasure at hm hμb ⊢
          omega
        obtain ⟨st₃, hok₃, hd1, hd2, hd3, hd4, hd5, hd6, ⟨P₃, hP₃, hP₃ne, hP₃last, hP₃len⟩, hd7⟩ :=
          ih node { st₂ with last_edge := st₂.last_edge.set node (cur₂ + 1) } hnode hSnode
            (by simpa using hc1.trans (by simp [hul])) (by simpa using hc2.trans hll) hμc
        refine ⟨st₃, hok₃, ?_, ?_, ?_, ?_, ?_, ?_, ⟨P₂ ++ P₃, ?_, ?_, ?_, ?_⟩, hd7⟩
        · rw [hd1]
          simpa using hc1.trans (by simp [hul] : ({ st with used_edge := st.used_edge.set (adjn.get ⟨cur, hguard⟩) true } : EulerState).used_edge.length = st.used_edge.length)
        · rw [hd2]
          simpa using hc2
        · calc cursorSlack g st₃
              ≤ cursorSlack g { st₂ with last_edge := st₂.last_edge.set node (cur₂ + 1) } := hd3
          _ ≤ cursorSlack g st₂ := cursorSlack_set_le g st₂ node (cur₂ + 1) (by omega)
          _ ≤ cursorSlack g { st with used_edge := st.used_edge.set (adjn.get ⟨cur, hguard⟩) true } := hc3
          _ = cursorSlack g st := cursorSlack_mark g st _
        · have h1 := unusedCount_set_true st _ hb
          have h2 : unusedCount { st₂ with last_edge := st₂.last_edge.set node (cur₂ + 1) }
              = unusedCount st₂ := unusedCount_cursor st₂ _
          omega
        · intro i hi
          apply hd5
          show ({ st₂ with last_edge := st₂.last_edge.set node (cur₂ + 1) } : EulerState).used_edge[i]? = some true
          apply hc5
          exact usedMono_set st.used_edge _ i hi
        · intro i hi
          rcases hd6 i hi with h1 | h1
          · rcases hc6 i h1 with h2 | h2
            · by_cases hx : adjn.get ⟨cur, hguard⟩ = i
              · subst hx
                exact Or.inr ⟨node, hSnode, by rw [hadjOf]; exact hidmem⟩
              · left
                have h2' : (st.used_edge.set (adjn.get ⟨cur, hguard⟩) true)[i]? = some true := h2
                rw [List.getElem?_set_ne hx] at h2'
                exact h2'
            · exact Or.inr h2
          · exact Or.inr h1
        · rw [hP₃]
          show st₂.result ++ P₃ = st.result ++ (P₂ ++ P₃)
          rw [hP₂]
          simp
        · simp [hP₂ne]
        · rw [List.getLast?_append_of_ne_nil _ hP₃ne]
          exact hP₃last
        · have h1 := unusedCount_set_true st _ hb
          have h2 : unusedCount ({ st₂ with last_edge := st₂.last_edge.set node (cur₂ + 1) } : EulerState)
              = unusedCount st₂ := unusedCount_cursor st₂ _
          have h3 : (P₂ ++ P₃).length = P₂.length + P₃.length := List.length_append _ _
          omega
    · have hstep : eulerian_dfs g (fuel + 1) node st =
          .ok { st with result := st.result ++ [node] } := by
        rw [eulerian_dfs_step g fuel node st cur hcur adjn hadj, dif_neg hguard]
      rw [hstep]
      refine ⟨{ st with result := st.result ++ [node] }, rfl, rfl, rfl, le_refl _, le_refl _,
        fun i hi => hi, fun i hi => Or.inl hi, ⟨[node], rfl, by simp, rfl, rfl⟩, ?_⟩
      show adjLenAt g node ≤ curAt st node
      omega

/-- Bind on a successful `Except` value reduces to the continuation. -/
theorem exceptBind_ok {α β : Type} (a : α) (f : α → Except EulerError β) :
    (Except.ok a >>= f) = f a := rfl

/-- A fallible fold succeeds and preserves an invariant when every step
does. -/
theorem foldlM_ok {α β : Type} (f : β → α → Except EulerError β) (Inv : β → Prop) :
    ∀ (l : List α) (init : β), Inv init →
      (∀ a ∈ l, ∀ b, Inv b → ∃ b', f b a = .ok b' ∧ Inv b') →
      ∃ r, l.foldlM f init = .ok r ∧ Inv r := by
  intro l
  induction l with
  | nil =>
    intro init hinit _
    exact ⟨init, List.foldlM_nil f init, hinit⟩
  | cons a l ih =>
    intro init hinit hstep
    obtain ⟨b', hfa, hinv'⟩ := hstep a (List.mem_cons_self a l) init hinit
    obtain ⟨r, hfold, hr⟩ :=
      ih b' hinv' (fun x hx b hb => hstep x (List.mem_cons_of_mem a hx) b hb)
    exact ⟨r, by rw [List.foldlM_cons, hfa, exceptBind_ok, hfold], hr⟩

/-- A successful fallible fold propagates any invariant its steps
preserve. -/
theorem foldlM_ok_inv {α β : Type} (f : β → α → Except EulerError β) (Inv : β → Prop) :
    ∀ (l : List α) (init r : β), l.foldlM f init = .ok r → Inv init →
      (∀ a ∈ l, ∀ b b', Inv b → f b a = .ok b' → Inv b') → Inv r := by
  intro l
  induction l with
  | nil =>
    intro init r h hinit _
    have h' : (Except.ok init : Except EulerError β) = .ok r := h
    cases h'
    exact hinit
  | cons a l ih =>
    intro init r h hinit hstep
    rw [List.foldlM_cons] at h
    cases hfa : f init a with
    | error e =>
      rw [hfa] at h
      have h' : (Except.error e : Except EulerError β) = .ok r := h
      cases h'
    | ok b =>
      rw [hfa] at h
      have h' : l.foldlM f b = .ok r := h
      exact ih b r h' (hstep a (List.mem_cons_self a l) init b hinit hfa)
        (fun x hx c c' hc hfc => hstep x (List.mem_cons_of_mem a hx) c c' hc hfc)

/-- `listInc` preserves the length of the counter vector. -/
theorem listInc_length (l : List ℕ) (i : ℕ) (l' : List ℕ)
    (h : listInc l i = .ok l') : l'.length = l.length := by
  unfold listInc at h
  cases hq : l[i]? with
  | none =>
    rw [hq] at h
    cases h
  | some a =>
    rw [hq] at h
    cases h
    exact List.length_set l i (a + 1)

/-- `listInc` succeeds on every in-range index. -/
theorem listInc_ok (l : List ℕ) (i : ℕ) (h : i < l.length) :
    ∃ l', listInc l i = .ok l' ∧ l'.length = l.length := by
  refine ⟨l.set i (l.get ⟨i, h⟩ + 1), ?_, List.length_set l i _⟩
  unfold listInc
  rw [List.getElem?_eq_getElem h]
  rfl

/-- A successful degree computation returns one counter per node. -/
theorem computeDegree_length {V E : Type} [Edge E] (g : Graph V E) (degree : List ℕ)
    (hdeg : computeDegree g = .ok degree) : degree.length = g.v := by
  have hstep : ∀ node ∈ List.range g.v, ∀ d d' : List ℕ, d.length = g.v →
      degreeNodeStep g d node = .ok d' → d'.length = g.v := by
    intro node _ d d' hd hstep
    unfold degreeNodeStep at hstep
    cases hq : listIdx g.adj_list node with
    | error e =>
      rw [hq] at hstep
      have h' : (Except.error e : Except EulerError (List ℕ)) = .ok d' := hstep
      cases h'
    | ok adjn =>
      rw [hq] at hstep
      have hstep' : adjn.foldlM (degreeEdgeStep g node) d = .ok d' := hstep
      refine foldlM_ok_inv (degreeEdgeStep g node) (fun x => x.length = g.v)
        adjn d d' hstep' hd ?_
      intro it _ b b' hb hfb
      unfold degreeEdgeStep at hfb
      cases he : listIdx g.edges it with
      | error e =>
        rw [he] at hfb
        have h' : (Except.error e : Except EulerError (List ℕ)) = .ok b' := hfb
        cases h'
      | ok ed =>
        rw [he] at hfb
        have hfb' : listInc b (Edge.to ed node) = .ok b' := hfb
        rw [listInc_length b _ b' hfb']
        exact hb
  exact foldlM_ok_inv (degreeNodeStep g) (fun d => d.length = g.v)
    (List.range g.v) (List.replicate g.v 0) degree hdeg (by simp) hstep

/-- On a well-formed graph the degree computation never hits the
out-of-bounds panics. -/
theorem computeDegree_ok {V E : Type} [Edge E] (g : Graph V E) (hwf : WF g) :
    ∃ degree, computeDegree g = .ok degree ∧ degree.length = g.v := by
  have hstep : ∀ node ∈ List.range g.v, ∀ d : List ℕ, d.length = g.v →
      ∃ d', degreeNodeStep g d node = .ok d' ∧ d'.length = g.v := by
    intro node hmem d hd
    have hnode : node < g.v := List.mem_range.mp hmem
    have hadj : node < g.adj_list.length := by
      rw [hwf.1]
      exact hnode
    obtain ⟨adjn, hadjq⟩ : ∃ a, g.adj_list[node]? = some a :=
      ⟨_, List.getElem?_eq_getElem hadj⟩
    have hinner : ∀ it ∈ adjn, ∀ b : List ℕ, b.length = g.v →
        ∃ b', degreeEdgeStep g node b it = .ok b' ∧ b'.length = g.v := by
      intro it hit b hb
      obtain ⟨ed, hed, hto⟩ := hwf.2 node adjn hadjq it hit
      obtain ⟨b', hinc, hlen⟩ := listInc_ok b (Edge.to ed node) (by rw [hb]; exact hto)
      refine ⟨b', ?_, by rw [hlen]; exact hb⟩
      unfold degreeEdgeStep
      rw [listIdx_some _ _ _ hed, exceptBind_ok, hinc]
    obtain ⟨d', hfold', hd'⟩ :=
      foldlM_ok (degreeEdgeStep g node) (fun x => x.length = g.v) adjn d hd hinner
    refine ⟨d', ?_, hd'⟩
    unfold degreeNodeStep
    rw [listIdx_some _ _ _ hadjq, exceptBind_ok, hfold']
  exact foldlM_ok (degreeNodeStep g) (fun d => d.length = g.v)
    (List.range g.v) (List.replicate g.v 0) (by simp) hstep

/-- The undirected feasibility scan counts exactly the odd-degree nodes
among the scanned ones (and never touches the directed counters); the
returned start node is the initial one or a scanned node. -/
theorem scanU_aux {V E : Type} [Edge E] (g : Graph V E) (degree : List ℕ) :
    ∀ l : List ℕ, (∀ n ∈ l, n < degree.length) → ∀ acc : ℕ × ℕ × ℕ × ℕ,
      ∃ s, l.foldlM (feasibilityStep g true degree) acc
          = .ok (s, acc.2.1 + l.countP (fun n => decide ((degree[n]?.getD 0) % 2 = 1)),
                 acc.2.2.1, acc.2.2.2) ∧
        (s = acc.1 ∨ s ∈ l) := by
  intro l
  induction l with
  | nil =>
    intro _ acc
    refine ⟨acc.1, ?_, Or.inl rfl⟩
    rw [List.foldlM_nil]
    simp only [List.countP_nil, Nat.add_zero]
    rfl
  | cons n l ih =>
    intro hmem acc
    have hn : n < degree.length := hmem n (List.mem_cons_self n l)
    have hdq : degree[n]? = some (degree[n]?.getD 0) := by
      rw [List.getElem?_eq_getElem hn]
      rfl
    have hstep : ∀ a : ℕ × ℕ × ℕ × ℕ, feasibilityStep g true degree a n =
        if (degree[n]?.getD 0) % 2 = 1 then .ok (n, a.2.1 + 1, a.2.2.1, a.2.2.2)
        else .ok a := by
      intro a
      unfold feasibilityStep
      rw [listIdx_some _ _ _ hdq]
      rfl
    by_cases hodd : (degree[n]?.getD 0) % 2 = 1
    · obtain ⟨s, hs, hside⟩ :=
        ih (fun m hm => hmem m (List.mem_cons_of_mem n hm)) (n, acc.2.1 + 1, acc.2.2.1, acc.2.2.2)
      refine ⟨s, ?_, ?_⟩
      · rw [List.foldlM_cons, hstep, if_pos hodd, exceptBind_ok, hs, List.countP_cons]
        rw [decide_eq_true hodd, if_pos rfl]
        rw [Nat.add_assoc, Nat.add_comm 1]
      · rcases hside with h | h
        · exact Or.inr (h ▸ List.mem_cons_self n l)
        · exact Or.inr (List.mem_cons_of_mem n h)
    · obtain ⟨s, hs, hside⟩ :=
        ih (fun m hm => hmem m (List.mem_cons_of_mem n hm)) acc
      refine ⟨s, ?_, ?_⟩
      · rw [List.foldlM_cons, hstep, if_neg hodd, exceptBind_ok, hs, List.countP_cons]
        rw [decide_eq_false hodd, if_neg Bool.false_ne_true, Nat.add_zero]
      · rcases hside with h | h
        · exact Or.inl h
        · exact Or.inr (List.mem_cons_of_mem n h)

/-- The directed feasibility scan counts exactly the nodes with in-degree
below (`cnt_pos`) and above (`cnt_neg`) their out-degree among the scanned
ones (and never touches the undirected counter). -/
theorem scanD_aux {V E : Type} [Edge E] (g : Graph V E) (degree : List ℕ) :
    ∀ l : List ℕ, (∀ n ∈ l, n < degree.length ∧ n < g.adj_list.length) →
      ∀ acc : ℕ × ℕ × ℕ × ℕ,
      ∃ s, l.foldlM (feasibilityStep g false degree) acc
          = .ok (s, acc.2.1,
                 acc.2.2.1 + l.countP (fun n => decide ((degree[n]?.getD 0) < adjLenAt g n)),
                 acc.2.2.2 + l.countP (fun n => decide (adjLenAt g n < (degree[n]?.getD 0)))) ∧
        (s = acc.1 ∨ s ∈ l) := by
  intro l
  induction l with
  | nil =>
    intro _ acc
    refine ⟨acc.1, ?_, Or.inl rfl⟩
    rw [List.foldlM_nil]
    simp only [List.countP_nil, Nat.add_zero]
    rfl
  | cons n l ih =>
    intro hmem acc
    have hn : n < degree.length := (hmem n (List.mem_cons_self n l)).1
    have hna : n < g.adj_list.length := (hmem n (List.mem_cons_self n l)).2
    have hdq : degree[n]? = some (degree[n]?.getD 0) := by
      rw [List.getElem?_eq_getElem hn]
      rfl
    have haq : g.adj_list[n]? = some (g.adj_list[n]?.getD []) := by
      rw [List.getElem?_eq_getElem hna]
      rfl
    have hstep : ∀ a : ℕ × ℕ × ℕ × ℕ, feasibilityStep g false degree a n =
        if (degree[n]?.getD 0) < adjLenAt g n then .ok (n, a.2.1, a.2.2.1 + 1, a.2.2.2)
        else if adjLenAt g n < (degree[n]?.getD 0) then
          .ok (a.1, a.2.1, a.2.2.1, a.2.2.2 + 1)
        else .ok a := by
      intro a
      unfold feasibilityStep
      rw [listIdx_some _ _ _ hdq, exceptBind_ok]
      show (listIdx g.adj_list n >>= fun adjn =>
        if (degree[n]?.getD 0) < adjn.length then
          pure (n, a.2.1, a.2.2.1 + 1, a.2.2.2)
        else if (degree[n]?.getD 0) > adjn.length then
          pure (a.1, a.2.1, a.2.2.1, a.2.2.2 + 1)
        else pure a) = _
      rw [listIdx_some _ _ _ haq]
      rfl
    have hmem' : ∀ m ∈ l, m < degree.length ∧ m < g.adj_list.length :=
      fun m hm => hmem m (List.mem_cons_of_mem n hm)
    by_cases hlt : (degree[n]?.getD 0) < adjLenAt g n
    · obtain ⟨s, hs, hside⟩ := ih hmem' (n, acc.2.1, acc.2.2.1 + 1, acc.2.2.2)
      refine ⟨s, ?_, ?_⟩
      · rw [List.foldlM_cons, hstep, if_pos hlt, exceptBind_ok, hs,
          List.countP_cons, List.countP_cons]
        rw [decide_eq_true hlt, if_pos rfl]
        rw [decide_eq_false (by omega : ¬ adjLenAt g n < (degree[n]?.getD 0)),
          if_neg Bool.false_ne_true, Nat.add_zero]
        rw [Nat.add_assoc, Nat.add_comm 1]
        rfl
      · rcases hside with h | h
        · exact Or.inr (h ▸ List.mem_cons_self n l)
        · exact Or.inr (List.mem_cons_of_mem n h)
    · by_cases hgt : adjLenAt g n < (degree[n]?.getD 0)
      · obtain ⟨s, hs, hside⟩ := ih hmem' (acc.1, acc.2.1, acc.2.2.1, acc.2.2.2 + 1)
        refine ⟨s, ?_, ?_⟩
        · rw [List.foldlM_cons, hstep, if_neg hlt, if_pos hgt, exceptBind_ok, hs,
            List.countP_cons, List.countP_cons]
          rw [decide_eq_true hgt, if_pos rfl]
          rw [decide_eq_false hlt, if_neg Bool.false_ne_true, Nat.add_zero]
          rw [Nat.add_assoc, Nat.add_comm 1]
          rfl
        · rcases hside with h | h
          · exact Or.inl h
          · exact Or.inr (List.mem_cons_of_mem n h)
      · obtain ⟨s, hs, hside⟩ := ih hmem' acc
        refine ⟨s, ?_, ?_⟩
        · rw [List.foldlM_cons, hstep, if_neg hlt, if_neg hgt, exceptBind_ok, hs,
            List.countP_cons, List.countP_cons]
          rw [decide_eq_false hlt, decide_eq_false hgt,
            if_neg Bool.false_ne_true, Nat.add_zero, Nat.add_zero]
        · rcases hside with h | h
          · exact Or.inl h
          · exact Or.inr (List.mem_cons_of_mem n h)

/-- The undirected scan over all nodes: `cnt_even` is the number of
odd-degree nodes, the directed counters stay zero. -/
theorem feasibilityScan_undirected {V E : Type} [Edge E] (g : Graph V E)
    (degree : List ℕ) (hlen : g.v ≤ degree.length) :
    ∃ s, feasibilityScan g true degree
        = .ok (s, (List.range g.v).countP
                    (fun n => decide ((degree[n]?.getD 0) % 2 = 1)), 0, 0) ∧
      (s = 0 ∨ s < g.v) := by
  obtain ⟨s, hs, hside⟩ := scanU_aux g degree (List.range g.v)
    (fun n hn => lt_of_lt_of_le (List.mem_range.mp hn) hlen) (0, 0, 0, 0)
  refine ⟨s, ?_, ?_⟩
  · unfold feasibilityScan
    rw [hs]
    simp
  · rcases hside with h | h
    · exact Or.inl h
    · exact Or.inr (List.mem_range.mp h)

/-- The directed scan over all nodes: `cnt_pos` and `cnt_neg` count the
nodes whose in-degree is below resp. above their out-degree. -/
theorem feasibilityScan_directed {V E : Type} [Edge E] (g : Graph V E)
    (degree : List ℕ) (hlen : g.v ≤ degree.length)
    (hadj : g.v ≤ g.adj_list.length) :
    ∃ s, feasibilityScan g false degree
        = .ok (s, 0,
               (List.range g.v).countP
                 (fun n => decide ((degree[n]?.getD 0) < adjLenAt g n)),
               (List.range g.v).countP
                 (fun n => decide (adjLenAt g n < (degree[n]?.getD 0)))) ∧
      (s = 0 ∨ s < g.v) := by
  obtain ⟨s, hs, hside⟩ := scanD_aux g degree (List.range g.v)
    (fun n hn => ⟨lt_of_lt_of_le (List.mem_range.mp hn) hlen,
      lt_of_lt_of_le (List.mem_range.mp hn) hadj⟩) (0, 0, 0, 0)
  refine ⟨s, ?_, ?_⟩
  · unfold feasibilityScan
    rw [hs]
    simp
  · rcases hside with h | h
    · exact Or.inl h
    · exact Or.inr (List.mem_range.mp h)

/-- On a well-formed graph the pre-traversal feasibility check never
panics, and any start node it returns is a valid node id. -/
theorem eulerianFeasibility_ok {V E : Type} [Edge E] (g : Graph V E) (hwf : WF g)
    (hv : 0 < g.nodes.length) (u c : Bool) :
    ∃ o, eulerianFeasibility g u c = .ok o ∧
      ∀ s, o = some s → s < g.nodes.length := by
  obtain ⟨degree, hdeg, hdlen⟩ := computeDegree_ok g hwf
  have hadjlen : g.v ≤ g.adj_list.length := le_of_eq hwf.1.symm
  cases u with
  | true =>
    obtain ⟨s, hscan, hside⟩ := feasibilityScan_undirected g degree (le_of_eq hdlen.symm)
    have hsv : s < g.nodes.length := by
      rcases hside with h | h
      · omega
      · exact h
    unfold eulerianFeasibility
    rw [hdeg, exceptBind_ok, hscan, exceptBind_ok]
    by_cases h1 : ((List.range g.v).countP
        (fun n => decide ((degree[n]?.getD 0) % 2 = 1))) > 2
    · refine ⟨none, ?_, fun t ht => absurd ht (by simp)⟩
      rw [if_pos rfl, if_pos h1]
      rfl
    · by_cases h2 : c = true ∧ ((List.range g.v).countP
          (fun n => decide ((degree[n]?.getD 0) % 2 = 1))) > 0
      · refine ⟨none, ?_, fun t ht => absurd ht (by simp)⟩
        rw [if_pos rfl, if_neg h1, if_pos h2]
        rfl
      · refine ⟨some s, ?_, fun t ht => by cases ht; exact hsv⟩
        rw [if_pos rfl, if_neg h1, if_neg h2]
        rfl
  | false =>
    obtain ⟨s, hscan, hside⟩ := feasibilityScan_directed g degree (le_of_eq hdlen.symm) hadjlen
    have hsv : s < g.nodes.length := by
      rcases hside with h | h
      · omega
      · exact h
    unfold eulerianFeasibility
    rw [hdeg, exceptBind_ok, hscan, exceptBind_ok]
    by_cases h1 : ((List.range g.v).countP
          (fun n => decide ((degree[n]?.getD 0) < adjLenAt g n))) > 1 ∨
        ((List.range g.v).countP
          (fun n => decide (adjLenAt g n < (degree[n]?.getD 0)))) > 1
    · refine ⟨none, ?_, fun t ht => absurd ht (by simp)⟩
      rw [if_neg Bool.false_ne_true, if_pos h1]
      rfl
    · by_cases h2 : c = true ∧ (((List.range g.v).countP
            (fun n => decide ((degree[n]?.getD 0) < adjLenAt g n))) > 0 ∨
          ((List.range g.v).countP
            (fun n => decide (adjLenAt g n < (degree[n]?.getD 0)))) > 0)
      · refine ⟨none, ?_, fun t ht => absurd ht (by simp)⟩
        rw [if_neg Bool.false_ne_true, if_neg h1, if_pos h2]
        rfl
      · refine ⟨some s, ?_, fun t ht => by cases ht; exact hsv⟩
        rw [if_neg Bool.false_ne_true, if_neg h1, if_neg h2]
        rfl

/-- Sum of the optional adjacency lengths over the index range is the sum
of the lengths. -/
theorem sum_getD_length (l : List (List ℕ)) :
    ∑ x in Finset.range l.length, (l[x]?.getD []).length = (l.map List.length).sum := by
  induction l with
  | nil => simp
  | cons a l ih =>
    rw [List.length_cons, Finset.sum_range_succ']
    simp only [List.getElem?_cons_succ, List.getElem?_cons_zero]
    rw [ih]
    simp [Nat.add_comm]

/-- The initial cursor slack is the total adjacency length. -/
theorem cursorSlack_init {V E : Type} (g : Graph V E) (e v : ℕ) :
    cursorSlack g ⟨List.replicate e false, List.replicate v 0, []⟩
      = (g.adj_list.map List.length).sum := by
  unfold cursorSlack
  have hz : ∀ x : ℕ, curAt ⟨List.replicate e false, List.replicate v 0, []⟩ x = 0 := by
    intro x
    unfold curAt
    rw [List.getElem?_replicate]
    by_cases h : x < v
    · rw [if_pos h]
      rfl
    · rw [if_neg h]
      rfl
  rw [Finset.sum_congr rfl (fun x _ => by rw [hz x, Nat.sub_zero])]
  unfold adjLenAt
  exact sum_getD_length g.adj_list

/-- Initially every edge is unconsumed. -/
theorem unusedCount_init (e : ℕ) (le res : List ℕ) :
    unusedCount ⟨List.replicate e false, le, res⟩ = e := by
  unfold unusedCount
  simp only [List.length_replicate]
  have h1 : ∀ i ∈ Finset.range e,
      (if (List.replicate e false)[i]?.getD true = false then (1 : ℕ) else 0) = 1 := by
    intro i hi
    rw [List.getElem?_replicate, if_pos (Finset.mem_range.mp hi)]
    rfl
  rw [Finset.sum_congr rfl h1, Finset.sum_const, Finset.card_range, smul_eq_mul, mul_one]

/-- The DFS fuel bound strictly dominates the initial measure. -/
theorem dfsMeasure_init {V E : Type} (g : Graph V E) :
    dfsMeasure g ⟨List.replicate g.e false, List.replicate g.v 0, []⟩ < dfsFuel g := by
  unfold dfsMeasure dfsFuel
  rw [cursorSlack_init, unusedCount_init]
  omega

/-- Executable well-formedness check, used to certify concrete graphs. -/
def wfBool {V E : Type} [Edge E] (g : Graph V E) : Bool :=
  decide (g.adj_list.length = g.nodes.length) &&
  (List.range g.adj_list.length).all (fun x =>
    (g.adj_list[x]?.getD []).all (fun id =>
      match g.edges[id]? with
      | some ed => decide (Edge.to ed x < g.nodes.length)
      | none => false))

/-- The executable check implies well-formedness. -/
theorem WF_of_wfBool {V E : Type} [Edge E] (g : Graph V E) (h : wfBool g = true) :
    WF g := by
  unfold wfBool at h
  rw [Bool.and_eq_true] at h
  obtain ⟨h1, h2⟩ := h
  refine ⟨of_decide_eq_true h1, ?_⟩
  intro x adjn hx id hid
  rw [List.all_eq_true] at h2
  have hxlt : x < g.adj_list.length := getElem?_lt_length _ _ _ hx
  have hx2 := h2 x (List.mem_range.mpr hxlt)
  rw [List.all_eq_true] at hx2
  have hid2 := hx2 id (by rw [hx]; exact hid)
  cases hed : g.edges[id]? with
  | none =>
    rw [hed] at hid2
    cases hid2
  | some ed =>
    rw [hed] at hid2
    exact ⟨ed, rfl, of_decide_eq_true hid2⟩

/-- C6 (amended): on every well-formed graph with at least one node,
`solve_eulerian` has exactly the two observable outcomes of the claim —
it returns `Ok` carrying `Some sequence` or `None`, and never a fatal
error.  (The original claim fails on the empty graph, where the
unconditional `eulerian_dfs(start_node)` indexes `last_edge[0]` out of
bounds.) -/
theorem c6_no_panic_amended {V E : Type} [Edge E] (g : Graph V E) (u c : Bool)
    (hwf : WF g) (hv : 0 < g.nodes.length) :
    ∃ r : Option (List ℕ), solve_eulerian g u c = .ok r := by
  obtain ⟨o, hfe, hbound⟩ := eulerianFeasibility_ok g hwf hv u c
  cases o with
  | none =>
    refine ⟨none, ?_⟩
    unfold solve_eulerian
    rw [hfe]
  | some s =>
    have hs : s < g.nodes.length := hbound s rfl
    obtain ⟨st', hok, -, -, -, -, -, -, -, -⟩ :=
      dfs_spec g hwf (fun _ => True) (fun x _ id _ ed _ => trivial) (dfsFuel g) s
        ⟨List.replicate g.e false, List.replicate g.v 0, []⟩ hs trivial
        (by simp) (by simp [Graph.v]) (dfsMeasure_init g)
    have h1 : solve_eulerian g u c =
        (match eulerian_dfs g (dfsFuel g) s
            ⟨List.replicate g.e false, List.replicate g.v 0, []⟩ with
         | .error e => .error e
         | .ok st =>
           if st.result.length ≠ g.e + 1 then .ok none
           else if u then .ok (some st.result) else .ok (some st.result.reverse)) := by
      unfold solve_eulerian
      rw [hfe]
    have h2 : solve_eulerian g u c =
        (if st'.result.length ≠ g.e + 1 then .ok none
         else if u then .ok (some st'.result) else .ok (some st'.result.reverse)) := by
      rw [h1, hok]
    by_cases hlen : st'.result.length ≠ g.e + 1
    · exact ⟨none, by rw [h2, if_pos hlen]⟩
    · cases u with
      | true => exact ⟨some st'.result, by rw [h2, if_neg hlen, if_pos rfl]⟩
      | false =>
        exact ⟨some st'.result.reverse,
          by rw [h2, if_neg hlen, if_neg Bool.false_ne_true]⟩

/-- C6 (counterexample): on the empty graph (`v = 0`, no edges) the solver
does not return a normal no-solution value: the degree checks pass
vacuously, `eulerian_dfs` is entered at start node 0, and the very first
read `last_edge[0]` is out of bounds — the Rust code panics instead of
returning `None`. -/
theorem c6_empty_graph_counterexample :
    solve_eulerian (⟨[], [], [], false⟩ : Graph Unit ℕ) false false
      = .error .indexOutOfBounds := rfl

/-- C6 (witness): the amended theorem applies to the one-node graph with
no edges. -/
theorem c6_no_panic_witness :
    WF (⟨[()], [], [[]], true⟩ : Graph Unit ℕ) ∧
    0 < (⟨[()], [], [[]], true⟩ : Graph Unit ℕ).nodes.length ∧
    ∃ r, solve_eulerian (⟨[()], [], [[]], true⟩ : Graph Unit ℕ) true true = .ok r := by
  have hwf : WF (⟨[()], [], [[]], true⟩ : Graph Unit ℕ) := WF_of_wfBool _ (by decide)
  exact ⟨hwf, by decide, c6_no_panic_amended _ true true hwf (by decide)⟩

/-- C4: if the degree vector computed by the solver has more than two
odd entries (undirected mode), or more than one node with in-degree below
out-degree or more than one with in-degree above out-degree (directed
mode), the pre-traversal feasibility check already answers `none` and
`solve_eulerian` returns `None`: the `.ok none` comes out of the
degree-check branch, which in the embedding (as in the source) returns
before the DFS is ever entered, so no traversal is attempted and no edge
is consumed. -/
theorem c4_degree_check {V E : Type} [Edge E] (g : Graph V E) (cycle : Bool)
    (degree : List ℕ) (hwf : WF g) (hdeg : computeDegree g = .ok degree) :
    (2 < (List.range g.v).countP (fun n => decide ((degree[n]?.getD 0) % 2 = 1)) →
      eulerianFeasibility g true cycle = .ok none ∧
      solve_eulerian g true cycle = .ok none) ∧
    ((1 < (List.range g.v).countP (fun n => decide ((degree[n]?.getD 0) < adjLenAt g n)) ∨
      1 < (List.range g.v).countP (fun n => decide (adjLenAt g n < (degree[n]?.getD 0)))) →
      eulerianFeasibility g false cycle = .ok none ∧
      solve_eulerian g false cycle = .ok none) := by
  have hdlen : degree.length = g.v := computeDegree_length g degree hdeg
  have hadjlen : g.v ≤ g.adj_list.length := le_of_eq hwf.1.symm
  constructor
  · intro hodd
    obtain ⟨s, hscan, -⟩ := feasibilityScan_undirected g degree (le_of_eq hdlen.symm)
    have hfe : eulerianFeasibility g true cycle = .ok none := by
      unfold eulerianFeasibility
      rw [hdeg, exceptBind_ok, hscan, exceptBind_ok]
      rw [if_pos rfl, if_pos hodd]
      rfl
    refine ⟨hfe, ?_⟩
    unfold solve_eulerian
    rw [hfe]
  · intro himb
    obtain ⟨s, hscan, -⟩ := feasibilityScan_directed g degree (le_of_eq hdlen.symm) hadjlen
    have hfe : eulerianFeasibility g false cycle = .ok none := by
      unfold eulerianFeasibility
      rw [hdeg, exceptBind_ok, hscan, exceptBind_ok]
      rw [if_neg Bool.false_ne_true, if_pos himb]
      rfl
    refine ⟨hfe, ?_⟩
    unfold solve_eulerian
    rw [hfe]

/-- C4 (witness): the star on four nodes has four odd-degree nodes, and
the solver rejects it before the traversal. -/
theorem c4_degree_check_witness :
    WF (⟨[(), (), (), ()], [(0, 1), (0, 2), (0, 3)], [[0, 1, 2], [0], [1], [2]], true⟩
        : Graph Unit (ℕ × ℕ)) ∧
    computeDegree (⟨[(), (), (), ()], [(0, 1), (0, 2), (0, 3)],
        [[0, 1, 2], [0], [1], [2]], true⟩ : Graph Unit (ℕ × ℕ)) = .ok [3, 1, 1, 1] ∧
    eulerianFeasibility (⟨[(), (), (), ()], [(0, 1), (0, 2), (0, 3)],
        [[0, 1, 2], [0], [1], [2]], true⟩ : Graph Unit (ℕ × ℕ)) true false = .ok none ∧
    solve_eulerian (⟨[(), (), (), ()], [(0, 1), (0, 2), (0, 3)],
        [[0, 1, 2], [0], [1], [2]], true⟩ : Graph Unit (ℕ × ℕ)) true false = .ok none := by
  have hwf : WF (⟨[(), (), (), ()], [(0, 1), (0, 2), (0, 3)],
      [[0, 1, 2], [0], [1], [2]], true⟩ : Graph Unit (ℕ × ℕ)) :=
    WF_of_wfBool _ (by decide)
  have h := (c4_degree_check _ false [3, 1, 1, 1] hwf rfl).1 (by decide)
  exact ⟨hwf, rfl, h.1, h.2⟩

/-- C5: on a graph that passes the feasibility check with start node `s`
but whose edges are split across two disjoint edge-covered sides — `S` is
the start side, closed under resolving adjacency entries, and edge `id₀`
has no adjacency occurrence on it — the traversal completes without
consuming `id₀`, the final result length differs from `e() + 1`, and it is
exactly this post-traversal length check that makes `solve_eulerian`
return `None`. -/
theorem c5_disconnected_guard {V E : Type} [Edge E] (g : Graph V E) (u c : Bool)
    (S : ℕ → Prop) (s id₀ : ℕ)
    (hwf : WF g) (hv : 0 < g.nodes.length)
    (hfe : eulerianFeasibility g u c = .ok (some s))
    (hSs : S s)
    (hSc : ∀ x, S x → ∀ id ∈ adjOf g x, ∀ ed, g.edges[id]? = some ed → S (Edge.to ed x))
    (hid₀e : id₀ < g.e)
    (hid₀ : ∀ x, S x → id₀ ∉ adjOf g x) :
    solve_eulerian g u c = .ok none ∧
    ∃ st', eulerian_dfs g (dfsFuel g) s
        ⟨List.replicate g.e false, List.replicate g.v 0, []⟩ = .ok st' ∧
      st'.result.length ≠ g.e + 1 := by
  obtain ⟨o, hfe', hbound⟩ := eulerianFeasibility_ok g hwf hv u c
  rw [hfe] at hfe'
  injection hfe' with hfe''
  subst hfe''
  have hs : s < g.nodes.length := hbound s rfl
  obtain ⟨st', hok, hl1, hl2, -, -, -, h6, ⟨P, hres, -, -, hcnt⟩, -⟩ :=
    dfs_spec g hwf S hSc (dfsFuel g) s
      ⟨List.replicate g.e false, List.replicate g.v 0, []⟩ hs hSs
      (by simp) (by simp [Graph.v]) (dfsMeasure_init g)
  have hlu : st'.used_edge.length = g.e := by
    rw [hl1]
    simp
  have hinit : (List.replicate g.e false)[id₀]? = some false := by
    rw [List.getElem?_replicate, if_pos hid₀e]
  obtain ⟨b, hb⟩ : ∃ b, st'.used_edge[id₀]? = some b :=
    ⟨_, List.getElem?_eq_getElem (by omega)⟩
  cases b with
  | true =>
    rcases h6 id₀ hb with h | ⟨x, hx, hmem⟩
    · have h' : (List.replicate g.e false)[id₀]? = some true := h
      rw [hinit] at h'
      simp at h'
    · exact absurd hmem (hid₀ x hx)
  | false =>
    have hu1 : 1 ≤ unusedCount st' := unusedCount_pos st' id₀ hb
    rw [unusedCount_init] at hcnt
    have hreslen : st'.result.length = P.length := by
      rw [hres]
      simp
    have hne : st'.result.length ≠ g.e + 1 := by omega
    have h1 : solve_eulerian g u c =
        (match eulerian_dfs g (dfsFuel g) s
            ⟨List.replicate g.e false, List.replicate g.v 0, []⟩ with
         | .error e => .error e
         | .ok st =>
           if st.result.length ≠ g.e + 1 then .ok none
           else if u then .ok (some st.result) else .ok (some st.result.reverse)) := by
      unfold solve_eulerian
      rw [hfe]
    have h2 : solve_eulerian g u c =
        (if st'.result.length ≠ g.e + 1 then .ok none
         else if u then .ok (some st'.result) else .ok (some st'.result.reverse)) := by
      rw [h1, hok]
    refine ⟨?_, st', hok, hne⟩
    rw [h2, if_pos hne]

/-- C5 (witness): two self-loops on two separate nodes pass the parity
check, but the traversal from node 0 never reaches edge 1 and the length
check rejects the attempt. -/
theorem c5_disconnected_guard_witness :
    eulerianFeasibility (⟨[(), ()], [(0, 0), (1, 1)], [[0, 0], [1, 1]], true⟩
        : Graph Unit (ℕ × ℕ)) true true = .ok (some 0) ∧
    solve_eulerian (⟨[(), ()], [(0, 0), (1, 1)], [[0, 0], [1, 1]], true⟩
        : Graph Unit (ℕ × ℕ)) true true = .ok none := by
  have hwf : WF (⟨[(), ()], [(0, 0), (1, 1)], [[0, 0], [1, 1]], true⟩
      : Graph Unit (ℕ × ℕ)) := WF_of_wfBool _ (by decide)
  have hSc : ∀ x, x = 0 → ∀ id ∈ adjOf (⟨[(), ()], [(0, 0), (1, 1)],
      [[0, 0], [1, 1]], true⟩ : Graph Unit (ℕ × ℕ)) x,
      ∀ ed, (⟨[(), ()], [(0, 0), (1, 1)], [[0, 0], [1, 1]], true⟩
        : Graph Unit (ℕ × ℕ)).edges[id]? = some ed → Edge.to ed x = 0 := by
    intro x hx id hid ed hed
    subst hx
    simp [adjOf] at hid
    subst hid
    simp at hed
    subst hed
    decide
  have hid₀ : ∀ x, x = 0 → (1 : ℕ) ∉ adjOf (⟨[(), ()], [(0, 0), (1, 1)],
      [[0, 0], [1, 1]], true⟩ : Graph Unit (ℕ × ℕ)) x := by
    intro x hx
    subst hx
    decide
  have hmain := c5_disconnected_guard
    (⟨[(), ()], [(0, 0), (1, 1)], [[0, 0], [1, 1]], true⟩ : Graph Unit (ℕ × ℕ))
    true true (fun x => x = 0) 0 1 hwf (by decide) rfl rfl hSc (by decide) hid₀
  exact ⟨rfl, hmain.1⟩

/-- C8 (counterexample): in an undirected graph built by `from_edges`,
the self-loop `(0, 0)` contributes two adjacency entries (the edge id is
pushed at both endpoints, which coincide) and two units of degree — not
the single entry the claim states. -/
theorem c8_self_loop_counterexample :
    (Graph.from_edges 1 [((0 : ℕ), (0 : ℕ))] (fun e => e) true
        : Except EulerError (Graph Unit (ℕ × ℕ)))
      = .ok ⟨[()], [(0, 0)], [[0, 0]], true⟩ ∧
    ((⟨[()], [(0, 0)], [[0, 0]], true⟩ : Graph Unit (ℕ × ℕ)).adj_list[0]?.getD []).length
      = 2 ∧
    computeDegree (⟨[()], [(0, 0)], [[0, 0]], true⟩ : Graph Unit (ℕ × ℕ)) = .ok [2] ∧
    (2 : ℕ) ≠ 1 := by
  exact ⟨rfl, rfl, rfl, by decide⟩

/-- C8 (amended): a self-loop resolves to its own node (`to(u) = u`), so
a consumed self-loop is a traversal step that does not change the current
node; it is consumed exactly like any other edge.  Its bookkeeping
contribution depends on the mode: one adjacency entry and one degree unit
in a directed graph, but two adjacency entries and two degree units in an
undirected graph.  On the one-node one-self-loop graph both orientations
return `Some [0, 0]` — two consecutive equal entries. -/
theorem c8_self_loop_amended :
    (∀ u : ℕ, Edge.to ((u, u) : ℕ × ℕ) u = u) ∧
    (Graph.from_edges 1 [((0 : ℕ), (0 : ℕ))] Prod.snd false
        : Except EulerError (Graph Unit ℕ))
      = .ok ⟨[()], [0], [[0]], false⟩ ∧
    computeDegree (⟨[()], [0], [[0]], false⟩ : Graph Unit ℕ) = .ok [1] ∧
    (Graph.from_edges 1 [((0 : ℕ), (0 : ℕ))] (fun e => e) true
        : Except EulerError (Graph Unit (ℕ × ℕ)))
      = .ok ⟨[()], [(0, 0)], [[0, 0]], true⟩ ∧
    computeDegree (⟨[()], [(0, 0)], [[0, 0]], true⟩ : Graph Unit (ℕ × ℕ)) = .ok [2] ∧
    find_eulerian_cycle (⟨[()], [(0, 0)], [[0, 0]], true⟩ : Graph Unit (ℕ × ℕ))
      = .ok (some [0, 0]) ∧
    find_eulerian_cycle (⟨[()], [0], [[0]], false⟩ : Graph Unit ℕ)
      = .ok (some [0, 0]) := by
  refine ⟨?_, rfl, rfl, rfl, rfl, rfl, rfl⟩
  intro u
  show u ^^^ u ^^^ u = u
  rw [Nat.xor_self, Nat.zero_xor]

end CompRust
